import Mathlib

/-!
Verification of `src/page_rank.py` (PageRank estimators).

The Python dictionaries are embedded as association lists (`List (Node × α)`)
with Python `dict` semantics: insertion order is preserved, assigning to an
existing key keeps its position, assigning to a fresh key appends it.  Python
floats are modelled by exact rationals `ℚ`.  Fallible operations (`KeyError`
on a missing key, `IndexError` from `random.choice` on an empty sequence,
`ZeroDivisionError`) run in `Except PyErr`.  The process-wide random source
used by `random.choice` is modelled as a stream `rng : Nat → Nat` together
with a position counter; `random.choice xs` reads the stream at the current
position (reduced mod `xs.length`) and advances the position by one.
-/

namespace PageRank

abbrev Node := String

/-- The graph representation returned by `load_graph`: a dict from node to its
ordered list of out-edge targets. -/
abbrev Graph := List (Node × List Node)

/-- A rank mapping (`hit_count` / `node_prob` / `next_prob`): a dict from node
to a rational score. -/
abbrev Dict := List (Node × ℚ)

/-- Runtime errors.  `keyError`, `indexError` and `zeroDivisionError` are the
Python exceptions the code in `src/page_rank.py` can actually raise.
`danglingNodeError` and `invalidParameterError` are modelled from the spec:
§7 of the spec names `DanglingNodeError` and `InvalidParameterError` as the
intended error taxonomy, but no such exception class exists anywhere in
`src/page_rank.py`; they are included only so the spec's error-handling
claims can be stated and compared against the code's behaviour. -/
inductive PyErr where
  | keyError
  | indexError
  | zeroDivisionError
  | danglingNodeError
  | invalidParameterError
  deriving DecidableEq, Repr

instance {ε α : Type} [DecidableEq ε] [DecidableEq α] : DecidableEq (Except ε α) :=
  fun a b =>
    match a, b with
    | .ok a, .ok b =>
        if h : a = b then isTrue (by rw [h]) else isFalse (by simp [h])
    | .error a, .error b =>
        if h : a = b then isTrue (by rw [h]) else isFalse (by simp [h])
    | .ok _, .error _ => isFalse (by simp)
    | .error _, .ok _ => isFalse (by simp)

/-! ### Dict primitives (Python `dict` semantics) -/

/-- `k in d` for a Python dict. -/
def dictMem (d : List (Node × α)) (k : Node) : Bool :=
  d.any (fun p => p.1 == k)

/-- `d[k]`: raises `KeyError` when `k` is not a key. -/
def dictGet (d : List (Node × α)) (k : Node) : Except PyErr α :=
  match d.find? (fun p => p.1 == k) with
  | some p => .ok p.2
  | none => .error .keyError

/-- `d[k] = v`: overwrite in place when the key exists (position kept),
append otherwise. -/
def dictSet (d : List (Node × α)) (k : Node) (v : α) : List (Node × α) :=
  if dictMem d k then d.map (fun p => if p.1 == k then (k, v) else p)
  else d ++ [(k, v)]

/-- `d.update(other)`: assign each of `other`'s items into `d`, in order. -/
def dictUpdate (d other : List (Node × α)) : List (Node × α) :=
  other.foldl (fun acc p => dictSet acc p.1 p.2) d

/-- `list(d.keys())`, in insertion order. -/
def dictKeys (d : List (Node × α)) : List Node :=
  d.map Prod.fst

/-- Total lookup with default `0`, used to state value facts about rank
dicts (`d[k]` when present, else `0`). -/
def getD (d : Dict) (k : Node) : ℚ :=
  match d.find? (fun p => p.1 == k) with
  | some p => p.2
  | none => 0

/-- The target list stored for `u`, or `[]` when `u` is not a key; used to
state facts about graphs. -/
def targetsOf (g : Graph) (u : Node) : List Node :=
  match g.find? (fun p => p.1 == u) with
  | some p => p.2
  | none => []

/-- Sum of a rank dict's values. -/
def sumDict (d : Dict) : ℚ :=
  (d.map Prod.snd).sum

/-! ### `load_graph` (src/page_rank.py lines 10–46)

The file has already been split into `(node, target)` pairs, one per line
(the `connections` list of the source); `load_graph` folds them into a
`defaultdict(list)`, appending each target to its source's list. -/

/-- `temp_d[k].append(v)` on a `defaultdict(list)`. -/
def graphAppend (g : Graph) (u v : Node) : Graph :=
  if g.any (fun p => p.1 == u) then
    g.map (fun p => if p.1 == u then (p.1, p.2 ++ [v]) else p)
  else g ++ [(u, [v])]

/-- Embeds `load_graph`: fold the edge lines into the adjacency dict. -/
def load_graph (connections : List (Node × Node)) : Graph :=
  connections.foldl (fun g p => graphAppend g p.1 p.2) []

/-! ### `stochastic_page_rank` (src/page_rank.py lines 62–95)

`random.choice(xs)` is modelled by reading the random stream at the current
position and indexing `xs` by it mod `xs.length`; on an empty sequence it
raises `IndexError`, as in Python. -/

/-- `random.choice (xs)`: pick `xs[rng t % len(xs)]` and advance the stream
position; `IndexError` on an empty sequence. -/
def pyChoice (rng : Nat → Nat) (t : Nat) (xs : List Node) : Except PyErr (Node × Nat) :=
  if h : xs = [] then .error .indexError
  else .ok (xs.get ⟨rng t % xs.length, Nat.mod_lt _ (List.length_pos.mpr h)⟩, t + 1)

/-- The inner `for j in range(n_steps+1)` loop: `steps` hops of
`current_node = random.choice(list(graph_rep_list[current_node]))`. -/
def walkSteps (g : Graph) (rng : Nat → Nat) :
    Nat → Node → Nat → Except PyErr (Node × Nat)
  | 0, cur, t => .ok (cur, t)
  | steps + 1, cur, t => do
      let ts ← dictGet g cur
      let (nxt, t') ← pyChoice rng t ts
      walkSteps g rng steps nxt t'

/-- One iteration of the outer `for i in range(n_iter+1)` loop: choose a
random start key, hop `(n_steps+1)` times, then
`hit_count[current_node] += 1/n_iter` (the key is read first, so a missing
key raises `KeyError` before `n_iter = 0` raises `ZeroDivisionError`; the
source's following `hit_count.update({current_node: ...})` rewrites the value
just stored and is a no-op). -/
def oneWalk (g : Graph) (n_iter n_steps : ℤ) (rng : Nat → Nat) (hc : Dict) (t : Nat) :
    Except PyErr (Dict × Nat) := do
  let (start, t1) ← pyChoice rng t (dictKeys g)
  let (fin, t2) ← walkSteps g rng (n_steps + 1).toNat start t1
  let cur ← dictGet hc fin
  if n_iter = 0 then .error .zeroDivisionError
  else .ok (dictSet hc fin (cur + 1 / (n_iter : ℚ)), t2)

/-- The outer loop, running `walks` iterations of `oneWalk`. -/
def stochLoop (g : Graph) (n_iter n_steps : ℤ) (rng : Nat → Nat) :
    Nat → Dict → Nat → Except PyErr (Dict × Nat)
  | 0, hc, t => .ok (hc, t)
  | walks + 1, hc, t => do
      let (hc', t') ← oneWalk g n_iter n_steps rng hc t
      stochLoop g n_iter n_steps rng walks hc' t'

/-- Embeds `stochastic_page_rank`: zero-initialise `hit_count` over the graph
keys, then run `range(n_iter+1)` walks of `range(n_steps+1)` hops each,
starting at stream position `t₀`. -/
def stochastic_page_rank (g : Graph) (n_iter n_steps : ℤ)
    (rng : Nat → Nat) (t₀ : Nat) : Except PyErr Dict := do
  let hc := (dictKeys g).foldl (fun d k => dictSet d k 0) []
  let (res, _) ← stochLoop g n_iter n_steps rng (n_iter + 1).toNat hc t₀
  .ok res

/-! ### `distribution_page_rank` (src/page_rank.py lines 98–133) -/

/-- `node_prob[key] = 1/len(graph_rep_list.keys())` over all keys. -/
def initProb (ks : List Node) : Dict :=
  ks.foldl (fun d k => dictSet d k (1 / (ks.length : ℚ))) []

/-- `for key in keys: next_prob[key] = 0`. -/
def zeroKeys (ks : List Node) (d : Dict) : Dict :=
  ks.foldl (fun acc k => dictSet acc k 0) d

/-- `for value in ts: next_prob[value] += p` (read then write, so a target
missing from `next_prob` raises `KeyError`). -/
def addAll (p : ℚ) : List Node → Dict → Except PyErr Dict
  | [], nx => .ok nx
  | v :: rest, nx => do
      let cur ← dictGet nx v
      addAll p rest (dictSet nx v (cur + p))

/-- The body run for one `key`:
`p = node_prob[key] / len(graph_rep_list[key])` (a `ZeroDivisionError` when
the target list is empty), then scatter `p` to every target. -/
def scatterOne (g : Graph) (np : Dict) (nx : Dict) (key : Node) :
    Except PyErr Dict := do
  let pk ← dictGet np key
  let ts ← dictGet g key
  if ts.length = 0 then .error .zeroDivisionError
  else addAll (pk / (ts.length : ℚ)) ts nx

/-- One iteration of `for i in range(n_iter+1)`: zero `next_prob` on the
keys, scatter every key's mass, then `node_prob.update(next_prob)`.  Both
dicts persist across rounds, so the pair is threaded. -/
def distRound (g : Graph) (np nx : Dict) : Except PyErr (Dict × Dict) := do
  let nx1 := zeroKeys (dictKeys g) nx
  let nx2 ← (dictKeys g).foldlM (fun acc key => scatterOne g np acc key) nx1
  .ok (dictUpdate np nx2, nx2)

/-- `rounds` iterations of `distRound`. -/
def distRounds (g : Graph) : Nat → Dict → Dict → Except PyErr (Dict × Dict)
  | 0, np, nx => .ok (np, nx)
  | rounds + 1, np, nx => do
      let (np', nx') ← distRound g np nx
      distRounds g rounds np' nx'

/-- Embeds `distribution_page_rank`: initialise `node_prob` uniformly over
the keys, run `range(n_iter+1)` rounds, return `node_prob`. -/
def distribution_page_rank (g : Graph) (n_iter : ℤ) : Except PyErr Dict := do
  let np := initProb (dictKeys g)
  let (res, _) ← distRounds g (n_iter + 1).toNat np []
  .ok res

/-- Embeds `distribution_page_rank` as it executes inside the whole program,
where the process-wide random stream position is ambient state: the function
body contains no call into `random`, so the position passes through
unchanged and the stream is never read. -/
def distribution_page_rank_rs (g : Graph) (n_iter : ℤ)
    (_rng : Nat → Nat) (t : Nat) : Except PyErr (Dict × Nat) :=
  (distribution_page_rank g n_iter).map (fun d => (d, t))

/-! ### Validity predicates (the Python `dict` invariant and the spec's
"no dangling nodes" condition) -/

/-- A Python dict never has two equal keys; association lists representing
dicts carry this invariant. -/
def keysNodup (g : Graph) : Prop :=
  (dictKeys g).Nodup

instance (g : Graph) : Decidable (keysNodup g) := by
  unfold keysNodup; infer_instance

/-- The spec's "no dangling nodes": every key has a non-empty target list
and every target is itself a key. -/
def noDangling (g : Graph) : Prop :=
  ∀ p ∈ g, p.2 ≠ [] ∧ ∀ v ∈ p.2, dictMem g v = true

instance (g : Graph) : Decidable (noDangling g) := by
  unfold noDangling; infer_instance

/-! ### Spec-side reference definitions

These follow the spec's wording (not the code) and are compared with the
embedded code in the refinement theorems. -/

/-- One propagation round as the spec states it: the new mass of `v` is the
sum over all nodes `u` of `m(u,v) * p(u) / d(u)`, with `d(u)` the length of
`u`'s target list and `m(u,v)` the number of occurrences of `v` in it. -/
def specStep (g : Graph) (p : Node → ℚ) (v : Node) : ℚ :=
  ((dictKeys g).map
    (fun u => ((targetsOf g u).count v : ℚ) * (p u / ((targetsOf g u).length : ℚ)))).sum

/-- The spec's initial mass: `1 / N` with `N` the total node count. -/
def specInit (g : Graph) : Node → ℚ :=
  fun _ => 1 / ((dictKeys g).length : ℚ)

/-- One hop as the spec states it: from the current node, move to the
out-edge target selected by the random source (index mod out-degree), and
advance the source's position. -/
def specHop (g : Graph) (rng : Nat → Nat) (st : Node × Nat) : Node × Nat :=
  let ts := targetsOf g st.1
  (ts.getD (rng st.2 % ts.length) st.1, st.2 + 1)

/-- One trial as the spec states it: start at the key selected by the random
source among the graph's keys, hop `steps` times, then add `inc` to the hit
counter of the node then occupied. -/
def specTrial (g : Graph) (rng : Nat → Nat) (steps : Nat) (inc : ℚ)
    (acc : Node → ℚ) (t : Nat) : (Node → ℚ) × Nat :=
  let ks := dictKeys g
  let start := ks.getD (rng t % ks.length) ""
  let fin := (specHop g rng)^[steps] (start, t + 1)
  (fun v => if v = fin.1 then acc v + inc else acc v, fin.2)

/-- `walks` successive trials, threading the counters and the random
source's position. -/
def specTrials (g : Graph) (rng : Nat → Nat) (steps : Nat) (inc : ℚ) :
    Nat → (Node → ℚ) × Nat → (Node → ℚ) × Nat
  | 0, s => s
  | walks + 1, s => specTrials g rng steps inc walks (specTrial g rng steps inc s.1 s.2)

/-- The accumulated hit counters after `walks` trials of `steps` hops, each
trial adding `inc`, starting from all-zero counters and position `t₀`. -/
def specStochastic (g : Graph) (rng : Nat → Nat) (t₀ : Nat)
    (walks steps : Nat) (inc : ℚ) : Node → ℚ :=
  (specTrials g rng steps inc walks (fun _ => 0, t₀)).1

/-! ### Dict lemmas -/

theorem dictMem_iff_mem_keys {α : Type} (d : List (Node × α)) (k : Node) :
    dictMem d k = true ↔ k ∈ dictKeys d := by
  simp [dictMem, dictKeys, List.any_eq_true, List.mem_map]

theorem find?_eq_none_of_not_mem {α : Type} {d : List (Node × α)} {k : Node}
    (h : dictMem d k = false) : d.find? (fun p => p.1 == k) = none := by
  rw [List.find?_eq_none]
  intro p hp
  have := List.any_eq_false.mp h p hp
  simpa using this

theorem getD_of_not_mem {d : Dict} {k : Node} (h : dictMem d k = false) :
    getD d k = 0 := by
  unfold getD
  rw [find?_eq_none_of_not_mem h]

theorem dictGet_of_mem {d : Dict} {k : Node} (h : dictMem d k = true) :
    dictGet d k = .ok (getD d k) := by
  unfold dictGet getD
  simp only [dictMem, List.any_eq_true] at h
  obtain ⟨p, hp, he⟩ := h
  have : (d.find? (fun p => p.1 == k)).isSome := by
    rw [List.find?_isSome]; exact ⟨p, hp, he⟩
  obtain ⟨q, hq⟩ := Option.isSome_iff_exists.mp this
  rw [hq]

theorem dictGet_of_not_mem {α : Type} {d : List (Node × α)} {k : Node}
    (h : dictMem d k = false) : dictGet d k = .error .keyError := by
  unfold dictGet
  rw [find?_eq_none_of_not_mem h]

theorem dictGet_ok_imp_mem {α : Type} {d : List (Node × α)} {k : Node} {v : α}
    (h : dictGet d k = .ok v) : dictMem d k = true := by
  by_contra hc
  rw [dictGet_of_not_mem (Bool.eq_false_iff.mpr (by simpa using hc))] at h
  exact Except.noConfusion h

theorem dictKeys_dictSet_of_mem {α : Type} {d : List (Node × α)} {k : Node} (v : α)
    (h : dictMem d k = true) : dictKeys (dictSet d k v) = dictKeys d := by
  unfold dictSet
  rw [if_pos h]
  unfold dictKeys
  rw [List.map_map]
  apply List.map_congr_left
  intro p _
  by_cases hp : p.1 = k
  · simp [hp]
  · simp [hp]

theorem dictKeys_dictSet_of_not_mem {α : Type} {d : List (Node × α)} {k : Node} (v : α)
    (h : dictMem d k = false) : dictKeys (dictSet d k v) = dictKeys d ++ [k] := by
  unfold dictSet
  rw [if_neg (by simp [h])]
  simp [dictKeys]

theorem find?_map_set_self {α : Type} {d : List (Node × α)} {k : Node} (v : α)
    (h : dictMem d k = true) :
    (d.map (fun p => if p.1 == k then (k, v) else p)).find? (fun p => p.1 == k)
      = some (k, v) := by
  induction d with
  | nil => simp [dictMem] at h
  | cons q d ih =>
      by_cases hq : q.1 = k
      · simp [List.find?_cons, hq]
      · have hq' : (q.1 == k) = false := by simp [hq]
        have hmem : dictMem d k = true := by
          simp only [dictMem, List.any_cons, hq', Bool.false_or] at h
          exact h
        have hhead : (if (q.1 == k) = true then (k, v) else q) = q := by simp [hq']
        simp only [List.map_cons, hhead]
        rw [List.find?_cons_of_neg _ (by simp [hq])]
        exact ih hmem

theorem find?_map_set_ne {α : Type} {d : List (Node × α)} {k w : Node} (v : α)
    (hw : w ≠ k) :
    (d.map (fun p => if p.1 == k then (k, v) else p)).find? (fun p => p.1 == w)
      = d.find? (fun p => p.1 == w) := by
  induction d with
  | nil => rfl
  | cons q d ih =>
      by_cases hq : q.1 = w
      · have hk : (q.1 == k) = false := by simp [hq, hw]
        have hhead : (if (q.1 == k) = true then (k, v) else q) = q := by simp [hk]
        simp only [List.map_cons, hhead]
        rw [List.find?_cons_of_pos _ (by simp [hq]), List.find?_cons_of_pos _ (by simp [hq])]
      · have hhead : ((if (q.1 == k) = true then (k, v) else q).1 == w) = false := by
          by_cases hk : q.1 = k
          · simp [hk, Ne.symm hw]
          · simp [hk, hq]
        simp only [List.map_cons]
        rw [List.find?_cons_of_neg _ (by simpa using hhead),
          List.find?_cons_of_neg _ (by simp [hq])]
        exact ih

theorem getD_dictSet_self {d : Dict} {k : Node} (v : ℚ) :
    getD (dictSet d k v) k = v := by
  unfold dictSet
  by_cases h : dictMem d k = true
  · rw [if_pos h]
    unfold getD
    rw [find?_map_set_self v h]
  · have h' : dictMem d k = false := Bool.eq_false_iff.mpr (by simpa using h)
    rw [if_neg (by simp [h'])]
    unfold getD
    rw [List.find?_append, find?_eq_none_of_not_mem h']
    simp

theorem getD_dictSet_ne {d : Dict} {k w : Node} (v : ℚ) (hw : w ≠ k) :
    getD (dictSet d k v) w = getD d w := by
  unfold dictSet
  by_cases h : dictMem d k = true
  · rw [if_pos h]
    unfold getD
    rw [find?_map_set_ne v hw]
  · have h' : dictMem d k = false := Bool.eq_false_iff.mpr (by simpa using h)
    rw [if_neg (by simp [h'])]
    unfold getD
    rw [List.find?_append]
    have : ([(k, v)].find? (fun p => p.1 == w)) = none := by
      simp [List.find?_cons, Ne.symm hw]
    rw [this]
    cases d.find? (fun p => p.1 == w) <;> simp

theorem dictMem_dictSet_iff {α : Type} (d : List (Node × α)) (k w : Node) (v : α) :
    dictMem (dictSet d k v) w = true ↔ (dictMem d w = true ∨ w = k) := by
  by_cases h : dictMem d k = true
  · rw [dictMem_iff_mem_keys, dictKeys_dictSet_of_mem v h, ← dictMem_iff_mem_keys]
    constructor
    · exact Or.inl
    · rintro (hw | rfl)
      · exact hw
      · exact h
  · have h' : dictMem d k = false := Bool.eq_false_iff.mpr (by simpa using h)
    rw [dictMem_iff_mem_keys, dictKeys_dictSet_of_not_mem v h']
    simp [← dictMem_iff_mem_keys]

theorem dictMem_cons {α : Type} (q : Node × α) (d : List (Node × α)) (v : Node) :
    dictMem (q :: d) v = ((q.1 == v) || dictMem d v) := by
  simp [dictMem]

theorem getD_cons (q : Node × ℚ) (d : Dict) (v : Node) :
    getD (q :: d) v = if q.1 = v then q.2 else getD d v := by
  unfold getD
  by_cases h : q.1 = v
  · rw [List.find?_cons_of_pos _ (by simp [h]), if_pos h]
  · rw [List.find?_cons_of_neg _ (by simp [h]), if_neg h]

theorem getD_dictUpdate {o : Dict} (hnd : (dictKeys o).Nodup) (d : Dict) (v : Node) :
    getD (dictUpdate d o) v
      = if dictMem o v = true then getD o v else getD d v := by
  induction o generalizing d with
  | nil => simp [dictUpdate, dictMem]
  | cons q o ih =>
      have hsplit : q.1 ∉ dictKeys o ∧ (dictKeys o).Nodup := by
        rw [show dictKeys (q :: o) = q.1 :: dictKeys o from rfl] at hnd
        exact List.nodup_cons.mp hnd
      have hq : q.1 ∉ dictKeys o := hsplit.1
      have hnd' : (dictKeys o).Nodup := hsplit.2
      show getD (dictUpdate (dictSet d q.1 q.2) o) v = _
      rw [ih hnd' (dictSet d q.1 q.2)]
      by_cases hv : dictMem o v = true
      · have hvk : v ∈ dictKeys o := (dictMem_iff_mem_keys o v).mp hv
        have hne : q.1 ≠ v := fun h => hq (h ▸ hvk)
        rw [if_pos hv, if_pos (by simp [dictMem_cons, hv]), getD_cons, if_neg hne]
      · have hv' : dictMem o v = false := Bool.eq_false_iff.mpr (by simpa using hv)
        rw [if_neg (by simp [hv'])]
        by_cases hqv : q.1 = v
        · subst hqv
          rw [getD_dictSet_self, if_pos (by simp [dictMem_cons]), getD_cons, if_pos rfl]
        · rw [getD_dictSet_ne _ (Ne.symm hqv),
            if_neg (by simp [dictMem_cons, hqv, hv'])]

theorem dictMem_dictUpdate_iff {α : Type} (d o : List (Node × α)) (v : Node) :
    dictMem (dictUpdate d o) v = true ↔ (dictMem d v = true ∨ dictMem o v = true) := by
  induction o generalizing d with
  | nil => simp [dictUpdate, dictMem]
  | cons q o ih =>
      show dictMem (dictUpdate (dictSet d q.1 q.2) o) v = true ↔ _
      rw [ih (dictSet d q.1 q.2)]
      rw [dictMem_dictSet_iff]
      constructor
      · rintro ((hd | rfl) | ho)
        · exact Or.inl hd
        · exact Or.inr (by simp [dictMem_cons])
        · exact Or.inr (by simp [dictMem_cons, ho])
      · rintro (hd | ho)
        · exact Or.inl (Or.inl hd)
        · rcases (by simpa [dictMem_cons] using ho : q.1 = v ∨ dictMem o v = true) with h | h
          · exact Or.inl (Or.inr h.symm)
          · exact Or.inr h

theorem dictKeys_dictUpdate_of_subset {α : Type} {d o : List (Node × α)}
    (hsub : ∀ k, dictMem o k = true → dictMem d k = true) :
    dictKeys (dictUpdate d o) = dictKeys d := by
  induction o generalizing d with
  | nil => rfl
  | cons q o ih =>
      show dictKeys (dictUpdate (dictSet d q.1 q.2) o) = dictKeys d
      have hqd : dictMem d q.1 = true := hsub q.1 (by simp [dictMem_cons])
      rw [ih (fun k hk => by
        rw [dictMem_dictSet_iff]
        exact Or.inl (hsub k (by simp [dictMem_cons, hk])))]
      exact dictKeys_dictSet_of_mem _ hqd

/-! Generic facts about `ks.foldl (fun acc k => dictSet acc k c) d`, the
shape shared by `zeroKeys`, `initProb` and the `hit_count` initialisation. -/

theorem getD_foldl_const (c : ℚ) :
    ∀ (ks : List Node) (d : Dict) (v : Node),
      getD (ks.foldl (fun acc k => dictSet acc k c) d) v
        = if v ∈ ks then c else getD d v := by
  intro ks
  induction ks with
  | nil => simp
  | cons k ks ih =>
      intro d v
      show getD (ks.foldl (fun acc k => dictSet acc k c) (dictSet d k c)) v = _
      rw [ih (dictSet d k c) v]
      by_cases hv : v ∈ ks
      · rw [if_pos hv, if_pos (by simp [hv])]
      · rw [if_neg hv]
        by_cases hvk : v = k
        · subst hvk
          rw [getD_dictSet_self, if_pos (by simp)]
        · rw [getD_dictSet_ne _ hvk, if_neg (by simp [hv, hvk])]

theorem dictMem_foldl_const (c : ℚ) :
    ∀ (ks : List Node) (d : Dict) (v : Node),
      dictMem (ks.foldl (fun acc k => dictSet acc k c) d) v = true
        ↔ (dictMem d v = true ∨ v ∈ ks) := by
  intro ks
  induction ks with
  | nil => simp
  | cons k ks ih =>
      intro d v
      show dictMem (ks.foldl (fun acc k => dictSet acc k c) (dictSet d k c)) v = true ↔ _
      rw [ih (dictSet d k c) v, dictMem_dictSet_iff]
      constructor
      · rintro ((hd | rfl) | hks)
        · exact Or.inl hd
        · exact Or.inr (by simp)
        · exact Or.inr (by simp [hks])
      · rintro (hd | hks)
        · exact Or.inl (Or.inl hd)
        · rcases List.mem_cons.mp hks with rfl | h
          · exact Or.inl (Or.inr rfl)
          · exact Or.inr h

theorem dictKeys_foldl_const_fresh (c : ℚ) :
    ∀ (ks : List Node) (d : Dict), (∀ k ∈ ks, dictMem d k = false) → ks.Nodup →
      dictKeys (ks.foldl (fun acc k => dictSet acc k c) d) = dictKeys d ++ ks := by
  intro ks
  induction ks with
  | nil => intro d _ _; simp
  | cons k ks ih =>
      intro d hfresh hnd
      show dictKeys (ks.foldl (fun acc k => dictSet acc k c) (dictSet d k c)) = _
      have hk : dictMem d k = false := hfresh k (by simp)
      have hfresh' : ∀ k' ∈ ks, dictMem (dictSet d k c) k' = false := by
        intro k' hk'
        have hne : k' ≠ k := fun h => (List.nodup_cons.mp hnd).1 (h ▸ hk')
        rw [Bool.eq_false_iff]
        intro hmem
        rcases (dictMem_dictSet_iff d k k' c).mp hmem with hmem | hmem
        · rw [hfresh k' (by simp [hk'])] at hmem; exact Bool.noConfusion hmem
        · exact hne hmem
      rw [ih (dictSet d k c) hfresh' (List.nodup_cons.mp hnd).2,
        dictKeys_dictSet_of_not_mem _ hk]
      simp

theorem exceptBind_ok {ε α β : Type} (a : α) (f : α → Except ε β) :
    (Except.ok a : Except ε α) >>= f = f a := rfl

theorem exceptBind_error {ε α β : Type} (e : ε) (f : α → Except ε β) :
    (Except.error e : Except ε α) >>= f = .error e := rfl

theorem dictKeys_nodup_dictSet {α : Type} {d : List (Node × α)} {k : Node} (v : α)
    (h : (dictKeys d).Nodup) : (dictKeys (dictSet d k v)).Nodup := by
  by_cases hm : dictMem d k = true
  · rw [dictKeys_dictSet_of_mem v hm]; exact h
  · have hm' : dictMem d k = false := Bool.eq_false_iff.mpr (by simpa using hm)
    rw [dictKeys_dictSet_of_not_mem v hm']
    rw [List.nodup_append]
    refine ⟨h, List.nodup_singleton k, ?_⟩
    intro a ha hb
    rw [List.mem_singleton] at hb
    subst hb
    have hmem : dictMem d a = true := (dictMem_iff_mem_keys d a).mpr ha
    rw [hm'] at hmem
    exact Bool.noConfusion hmem

theorem dictKeys_nodup_foldl_const (c : ℚ) :
    ∀ (ks : List Node) (d : Dict), (dictKeys d).Nodup →
      (dictKeys (ks.foldl (fun acc k => dictSet acc k c) d)).Nodup := by
  intro ks
  induction ks with
  | nil => intro d h; exact h
  | cons k ks ih =>
      intro d h
      exact ih (dictSet d k c) (dictKeys_nodup_dictSet c h)

theorem dictGet_graph_of_mem {g : Graph} {k : Node} (h : dictMem g k = true) :
    dictGet g k = .ok (targetsOf g k) := by
  unfold dictGet targetsOf
  simp only [dictMem, List.any_eq_true] at h
  obtain ⟨p, hp, he⟩ := h
  have : (g.find? (fun p => p.1 == k)).isSome := by
    rw [List.find?_isSome]; exact ⟨p, hp, he⟩
  obtain ⟨q, hq⟩ := Option.isSome_iff_exists.mp this
  rw [hq]

theorem targetsOf_mem_graph {g : Graph} {k : Node} (h : dictMem g k = true) :
    (k, targetsOf g k) ∈ g := by
  unfold targetsOf
  simp only [dictMem, List.any_eq_true] at h
  obtain ⟨p, hp, he⟩ := h
  have hs : (g.find? (fun p => p.1 == k)).isSome := by
    rw [List.find?_isSome]; exact ⟨p, hp, he⟩
  obtain ⟨q, hq⟩ := Option.isSome_iff_exists.mp hs
  rw [hq]
  show (k, q.2) ∈ g
  have hq1 := List.find?_some hq
  have hqk : q.1 = k := by simpa using hq1
  have hqmem : q ∈ g := List.mem_of_find?_eq_some hq
  rw [← hqk]
  exact hqmem

/-- In a graph with no dangling nodes, every key has a non-empty target
list consisting of keys. -/
theorem noDangling_targets {g : Graph} (h : noDangling g) {k : Node}
    (hk : dictMem g k = true) :
    targetsOf g k ≠ [] ∧ ∀ v ∈ targetsOf g k, dictMem g v = true :=
  h (k, targetsOf g k) (targetsOf_mem_graph hk)

/-- Running `for value in ts: next_prob[value] += p` succeeds when every
target is a key of `next_prob`, keeps its key list, and adds
`(multiplicity of v in ts) * p` to each value. -/
theorem addAll_ok (p : ℚ) :
    ∀ (ts : List Node) (nx : Dict), (∀ v ∈ ts, dictMem nx v = true) →
      ∃ nx', addAll p ts nx = .ok nx'
        ∧ dictKeys nx' = dictKeys nx
        ∧ ∀ v, getD nx' v = getD nx v + (ts.count v : ℚ) * p := by
  intro ts
  induction ts with
  | nil =>
      intro nx _
      refine ⟨nx, rfl, rfl, fun v => ?_⟩
      simp
  | cons w rest ih =>
      intro nx hmem
      have hw : dictMem nx w = true := hmem w (by simp)
      have hstep : ∀ v ∈ rest, dictMem (dictSet nx w (getD nx w + p)) v = true := by
        intro v hv
        exact (dictMem_dictSet_iff nx w v _).mpr (Or.inl (hmem v (by simp [hv])))
      obtain ⟨nx', heq, hkeys, hval⟩ := ih (dictSet nx w (getD nx w + p)) hstep
      refine ⟨nx', ?_, ?_, ?_⟩
      · show (dictGet nx w).bind _ = .ok nx'
        rw [dictGet_of_mem hw]
        exact heq
      · rw [hkeys, dictKeys_dictSet_of_mem _ hw]
      · intro v
        rw [hval v]
        by_cases hvw : v = w
        · subst hvw
          rw [getD_dictSet_self]
          have hc : (v :: rest).count v = rest.count v + 1 := List.count_cons_self v rest
          rw [hc]
          push_cast
          ring
        · rw [getD_dictSet_ne _ hvw]
          have hc : (w :: rest).count v = rest.count v := List.count_cons_of_ne hvw rest
          rw [hc]

/-- One `key`'s scatter succeeds when `key` is a key of the graph and of
`node_prob`, its target list is non-empty, and every target is a key of
`next_prob`; it keeps `next_prob`'s key list and adds
`m(key,v) * p(key)/d(key)` to each value. -/
theorem scatterOne_ok {g : Graph} {np nx : Dict} {key : Node}
    (hkey : dictMem g key = true) (hnp : dictMem np key = true)
    (hne : targetsOf g key ≠ [])
    (htg : ∀ v ∈ targetsOf g key, dictMem nx v = true) :
    ∃ nx', scatterOne g np nx key = .ok nx'
      ∧ dictKeys nx' = dictKeys nx
      ∧ ∀ v, getD nx' v = getD nx v
          + ((targetsOf g key).count v : ℚ)
            * (getD np key / ((targetsOf g key).length : ℚ)) := by
  obtain ⟨nx', heq, hkeys, hval⟩ :=
    addAll_ok (getD np key / ((targetsOf g key).length : ℚ)) (targetsOf g key) nx htg
  refine ⟨nx', ?_, hkeys, hval⟩
  unfold scatterOne
  rw [dictGet_of_mem hnp]
  simp only [exceptBind_ok]
  rw [dictGet_graph_of_mem hkey]
  simp only [exceptBind_ok]
  rw [if_neg (List.length_pos.mpr hne).ne']
  exact heq

/-- The `for key in graph_rep_list.keys()` scatter loop: under no dangling
nodes it succeeds, keeps `next_prob`'s key list, and accumulates the
spec's per-source contributions. -/
theorem scatterFold_ok {g : Graph} {np : Dict} (hnod : noDangling g)
    (hnp : ∀ k, dictMem g k = true → dictMem np k = true) :
    ∀ (ks : List Node) (nx : Dict), (∀ k ∈ ks, dictMem g k = true) →
      (∀ v, dictMem g v = true → dictMem nx v = true) →
      ∃ nx', ks.foldlM (fun acc key => scatterOne g np acc key) nx = .ok nx'
        ∧ dictKeys nx' = dictKeys nx
        ∧ ∀ v, getD nx' v = getD nx v
            + ((ks.map (fun u => ((targetsOf g u).count v : ℚ)
                * (getD np u / ((targetsOf g u).length : ℚ)))).sum) := by
  intro ks
  induction ks with
  | nil =>
      intro nx _ _
      refine ⟨nx, rfl, rfl, fun v => ?_⟩
      simp
  | cons k ks ih =>
      intro nx hks hnx
      have hk : dictMem g k = true := hks k (by simp)
      obtain ⟨hne, htg⟩ := noDangling_targets hnod hk
      obtain ⟨nx1, heq1, hkeys1, hval1⟩ :=
        scatterOne_ok hk (hnp k hk) hne (fun v hv => hnx v (htg v hv))
      have hnx1 : ∀ v, dictMem g v = true → dictMem nx1 v = true := by
        intro v hv
        have := hnx v hv
        rw [dictMem_iff_mem_keys] at this ⊢
        rw [hkeys1]
        exact this
      obtain ⟨nx', heq', hkeys', hval'⟩ := ih nx1 (fun k' hk' => hks k' (by simp [hk'])) hnx1
      refine ⟨nx', ?_, by rw [hkeys', hkeys1], fun v => ?_⟩
      · rw [List.foldlM_cons, heq1]
        simp only [exceptBind_ok]
        exact heq'
      · rw [hval' v, hval1 v, List.map_cons, List.sum_cons]
        ring

theorem dictMem_eq_of_keys_eq {α β : Type} {d : List (Node × α)} {d' : List (Node × β)}
    (h : dictKeys d = dictKeys d') (v : Node) : dictMem d v = dictMem d' v := by
  rw [Bool.eq_iff_iff, dictMem_iff_mem_keys, dictMem_iff_mem_keys, h]

/-- `specStep` only reads its argument at the graph's keys. -/
theorem specStep_congr {g : Graph} {f f' : Node → ℚ}
    (h : ∀ u ∈ dictKeys g, f u = f' u) : specStep g f = specStep g f' := by
  funext v
  unfold specStep
  congr 1
  apply List.map_congr_left
  intro u hu
  rw [h u hu]

/-- Off the graph's keys the spec operator produces no mass (no dangling
nodes: every target is a key). -/
theorem specStep_eq_zero_of_not_key {g : Graph} (hnod : noDangling g) {v : Node}
    (hv : v ∉ dictKeys g) (f : Node → ℚ) : specStep g f v = 0 := by
  unfold specStep
  apply List.sum_eq_zero
  intro x hx
  rw [List.mem_map] at hx
  obtain ⟨u, hu, rfl⟩ := hx
  have hmemu : dictMem g u = true := (dictMem_iff_mem_keys g u).mpr hu
  have hcount : (targetsOf g u).count v = 0 := by
    rw [List.count_eq_zero]
    intro hc
    exact hv (by
      rw [← dictMem_iff_mem_keys]
      exact (noDangling_targets hnod hmemu).2 v hc)
  rw [hcount]
  simp

/-- One code round, under no dangling nodes: succeeds, keeps the state
invariants, and replaces `node_prob`'s values by one application of the
spec operator. -/
theorem distRound_ok {g : Graph} (hnod : noDangling g) {np nx : Dict}
    (hnpk : dictKeys np = dictKeys g)
    (hnxk : ∀ v, dictMem nx v = true → dictMem g v = true)
    (hnxnd : (dictKeys nx).Nodup) :
    ∃ np' nx', distRound g np nx = .ok (np', nx')
      ∧ dictKeys np' = dictKeys g
      ∧ (∀ v, dictMem nx' v = true → dictMem g v = true)
      ∧ (dictKeys nx').Nodup
      ∧ ∀ v, getD np' v = specStep g (fun u => getD np u) v := by
  have hnp : ∀ k, dictMem g k = true → dictMem np k = true := by
    intro k hk
    rw [dictMem_eq_of_keys_eq hnpk k]
    exact hk
  have hzero : ∀ v, getD (zeroKeys (dictKeys g) nx) v = 0 := by
    intro v
    show getD ((dictKeys g).foldl (fun acc k => dictSet acc k 0) nx) v = 0
    rw [getD_foldl_const]
    by_cases hv : v ∈ dictKeys g
    · rw [if_pos hv]
    · rw [if_neg hv]
      apply getD_of_not_mem
      rw [Bool.eq_false_iff]
      intro hc
      exact hv ((dictMem_iff_mem_keys g v).mp (hnxk v hc))
  have hmem1 : ∀ v, dictMem (zeroKeys (dictKeys g) nx) v = true ↔ v ∈ dictKeys g := by
    intro v
    show dictMem ((dictKeys g).foldl (fun acc k => dictSet acc k 0) nx) v = true ↔ _
    rw [dictMem_foldl_const]
    constructor
    · rintro (hv | hv)
      · exact (dictMem_iff_mem_keys g v).mp (hnxk v hv)
      · exact hv
    · exact Or.inr
  have hnd1 : (dictKeys (zeroKeys (dictKeys g) nx)).Nodup :=
    dictKeys_nodup_foldl_const 0 (dictKeys g) nx hnxnd
  obtain ⟨nx2, heq2, hkeys2, hval2⟩ :=
    scatterFold_ok hnod hnp (dictKeys g) (zeroKeys (dictKeys g) nx)
      (fun k hk => (dictMem_iff_mem_keys g k).mpr hk)
      (fun v hv => (hmem1 v).mpr ((dictMem_iff_mem_keys g v).mp hv))
  have hmem2 : ∀ v, dictMem nx2 v = true ↔ v ∈ dictKeys g := by
    intro v
    rw [dictMem_eq_of_keys_eq hkeys2 v]
    exact hmem1 v
  have hnd2 : (dictKeys nx2).Nodup := by rw [hkeys2]; exact hnd1
  refine ⟨dictUpdate np nx2, nx2, ?_, ?_, fun v hv => (dictMem_iff_mem_keys g v).mpr
    ((hmem2 v).mp hv), hnd2, ?_⟩
  · unfold distRound
    simp only [heq2, exceptBind_ok]
  · rw [dictKeys_dictUpdate_of_subset (fun k hk => hnp k
      ((dictMem_iff_mem_keys g k).mpr ((hmem2 k).mp hk)))]
    exact hnpk
  · intro v
    rw [getD_dictUpdate hnd2 np v]
    by_cases hv : v ∈ dictKeys g
    · rw [if_pos ((hmem2 v).mpr hv), hval2 v, hzero v, zero_add]
      rfl
    · have hnm2 : dictMem nx2 v = false := by
        rw [Bool.eq_false_iff]
        intro hc
        exact hv ((hmem2 v).mp hc)
      rw [if_neg (by simp [hnm2])]
      have hnmnp : dictMem np v = false := by
        rw [Bool.eq_false_iff]
        intro hc
        exact hv ((dictMem_iff_mem_keys g v).mp (by rw [← dictMem_eq_of_keys_eq hnpk]; exact hc))
      rw [getD_of_not_mem hnmnp, specStep_eq_zero_of_not_key hnod hv]

/-- `r` code rounds compute `r` applications of the spec operator. -/
theorem distRounds_ok {g : Graph} (hnod : noDangling g) :
    ∀ (r : Nat) (np nx : Dict), dictKeys np = dictKeys g →
      (∀ v, dictMem nx v = true → dictMem g v = true) →
      (dictKeys nx).Nodup →
      ∃ np' nx', distRounds g r np nx = .ok (np', nx')
        ∧ dictKeys np' = dictKeys g
        ∧ ∀ v, getD np' v = (specStep g)^[r] (fun u => getD np u) v := by
  intro r
  induction r with
  | zero =>
      intro np nx hnpk _ _
      exact ⟨np, nx, rfl, hnpk, fun v => rfl⟩
  | succ r ih =>
      intro np nx hnpk hnxk hnxnd
      obtain ⟨np1, nx1, heq1, hk1, hm1, hn1, hv1⟩ := distRound_ok hnod hnpk hnxk hnxnd
      obtain ⟨np', nx', heq', hk', hv'⟩ := ih np1 nx1 hk1 hm1 hn1
      refine ⟨np', nx', ?_, hk', fun v => ?_⟩
      · show (distRound g np nx) >>= _ = .ok (np', nx')
        rw [heq1]
        simp only [exceptBind_ok]
        exact heq'
      · rw [hv' v]
        have hfun : (fun u => getD np1 u) = specStep g (fun u => getD np u) := by
          funext u
          exact hv1 u
        rw [hfun, ← Function.iterate_succ_apply]

theorem initProb_keys {ks : List Node} (hnd : ks.Nodup) :
    dictKeys (initProb ks) = ks := by
  show dictKeys (ks.foldl (fun acc k => dictSet acc k (1 / (ks.length : ℚ))) []) = ks
  rw [dictKeys_foldl_const_fresh (1 / (ks.length : ℚ)) ks [] (fun k _ => rfl) hnd]
  rfl

theorem initProb_getD (ks : List Node) (v : Node) :
    getD (initProb ks) v = if v ∈ ks then 1 / (ks.length : ℚ) else 0 := by
  show getD (ks.foldl (fun acc k => dictSet acc k (1 / (ks.length : ℚ))) []) v = _
  rw [getD_foldl_const]
  by_cases hv : v ∈ ks
  · rw [if_pos hv, if_pos hv]
  · rw [if_neg hv, if_neg hv]
    rfl

/-- The central distribution correspondence: on a well-formed graph with no
dangling nodes and `n ≥ 0`, the code returns the dict over exactly the graph
keys whose values are `n+1` applications of the spec's round operator to the
uniform initial mass — one round more than the parameter names. -/
theorem distribution_page_rank_spec {g : Graph} (hnd : keysNodup g)
    (hnod : noDangling g) {n : ℤ} (hn : 0 ≤ n) :
    ∃ d, distribution_page_rank g n = .ok d
      ∧ dictKeys d = dictKeys g
      ∧ ∀ v, getD d v = (specStep g)^[n.toNat + 1] (specInit g) v := by
  have hkeys0 : dictKeys (initProb (dictKeys g)) = dictKeys g := initProb_keys hnd
  obtain ⟨np', nx', heq, hk', hv'⟩ :=
    distRounds_ok hnod (n + 1).toNat (initProb (dictKeys g)) [] hkeys0
      (fun v hv => Bool.noConfusion hv) List.nodup_nil
  refine ⟨np', ?_, hk', fun v => ?_⟩
  · unfold distribution_page_rank
    simp only [heq, exceptBind_ok]
  · rw [hv' v]
    have ht : (n + 1).toNat = n.toNat + 1 := by omega
    rw [ht]
    have hcong : specStep g (fun u => getD (initProb (dictKeys g)) u)
        = specStep g (specInit g) := by
      apply specStep_congr
      intro u hu
      rw [initProb_getD, if_pos hu]
      rfl
    rw [Function.iterate_succ_apply, Function.iterate_succ_apply, hcong]

/-! ### Mass conservation of the spec operator -/

theorem sum_map_add_split (l : List Node) (f g : Node → ℚ) :
    (l.map (fun x => f x + g x)).sum = (l.map f).sum + (l.map g).sum := by
  induction l with
  | nil => simp
  | cons x l ih =>
      simp only [List.map_cons, List.sum_cons, ih]
      ring

theorem sum_map_swap (l m : List Node) (F : Node → Node → ℚ) :
    (l.map (fun v => (m.map (fun u => F u v)).sum)).sum
      = (m.map (fun u => (l.map (fun v => F u v)).sum)).sum := by
  induction l with
  | nil =>
      simp
  | cons v l ih =>
      simp only [List.map_cons, List.sum_cons, ih]
      rw [← sum_map_add_split]

theorem sum_indicator_one :
    ∀ (ks : List Node), ks.Nodup → ∀ t ∈ ks,
      (ks.map (fun v => if v = t then (1 : ℚ) else 0)).sum = 1 := by
  intro ks
  induction ks with
  | nil => intro _ t ht; cases ht
  | cons k ks ih =>
      intro hnd t ht
      rw [List.map_cons, List.sum_cons]
      rcases List.mem_cons.mp ht with heq | htk
      · rw [if_pos heq.symm]
        have hzero : (ks.map (fun v => if v = t then (1 : ℚ) else 0)).sum = 0 := by
          apply List.sum_eq_zero
          intro x hx
          rw [List.mem_map] at hx
          obtain ⟨v, hv, rfl⟩ := hx
          have hvt : v ≠ t := by
            intro h
            apply (List.nodup_cons.mp hnd).1
            rw [← heq, ← h]
            exact hv
          rw [if_neg hvt]
        rw [hzero]
        ring
      · have hkt : k ≠ t := by
          intro h
          apply (List.nodup_cons.mp hnd).1
          rw [h]
          exact htk
        rw [if_neg hkt, ih (List.nodup_cons.mp hnd).2 t htk]
        ring

theorem sum_counts_eq_length {ks : List Node} (hnd : ks.Nodup) :
    ∀ {ts : List Node}, (∀ v ∈ ts, v ∈ ks) →
      (ks.map (fun v => (ts.count v : ℚ))).sum = (ts.length : ℚ) := by
  intro ts
  induction ts with
  | nil => intro _; simp
  | cons t rest ih =>
      intro hsub
      have hsplit : ∀ v : Node,
          ((t :: rest).count v : ℚ)
            = (rest.count v : ℚ) + (if v = t then (1 : ℚ) else 0) := by
        intro v
        by_cases hv : v = t
        · subst hv
          rw [List.count_cons_self, if_pos rfl]
          push_cast
          ring
        · rw [List.count_cons_of_ne hv, if_neg hv]
          ring
      calc (ks.map (fun v => ((t :: rest).count v : ℚ))).sum
          = (ks.map (fun v => (rest.count v : ℚ) + (if v = t then (1 : ℚ) else 0))).sum := by
            congr 1
            exact List.map_congr_left (fun v _ => hsplit v)
        _ = (ks.map (fun v => (rest.count v : ℚ))).sum
            + (ks.map (fun v => if v = t then (1 : ℚ) else 0)).sum :=
            sum_map_add_split ks _ _
        _ = (rest.length : ℚ) + 1 := by
            rw [ih (fun v hv => hsub v (by simp [hv])),
              sum_indicator_one ks hnd t (hsub t (by simp))]
        _ = ((t :: rest).length : ℚ) := by
            rw [List.length_cons]
            push_cast
            ring

/-- One spec round conserves total mass over the keys of a graph with no
dangling nodes. -/
theorem specStep_sum {g : Graph} (hnd : keysNodup g) (hnod : noDangling g)
    (f : Node → ℚ) :
    ((dictKeys g).map (specStep g f)).sum = ((dictKeys g).map f).sum := by
  unfold specStep
  rw [sum_map_swap (dictKeys g) (dictKeys g)
    (fun u v => ((targetsOf g u).count v : ℚ) * (f u / ((targetsOf g u).length : ℚ)))]
  congr 1
  apply List.map_congr_left
  intro u hu
  have hmemu : dictMem g u = true := (dictMem_iff_mem_keys g u).mpr hu
  obtain ⟨hne, hsub⟩ := noDangling_targets hnod hmemu
  have hlen : ((targetsOf g u).length : ℚ) ≠ 0 := by
    have := List.length_pos.mpr hne
    positivity
  calc ((dictKeys g).map
        (fun v => ((targetsOf g u).count v : ℚ) * (f u / ((targetsOf g u).length : ℚ)))).sum
      = ((dictKeys g).map (fun v => ((targetsOf g u).count v : ℚ))).sum
          * (f u / ((targetsOf g u).length : ℚ)) := by
        rw [← List.sum_map_mul_right]
    _ = ((targetsOf g u).length : ℚ) * (f u / ((targetsOf g u).length : ℚ)) := by
        rw [sum_counts_eq_length hnd
          (fun v hv => (dictMem_iff_mem_keys g v).mp (hsub v hv))]
    _ = f u := by
        field_simp

theorem sumDict_eq_sum_getD :
    ∀ {d : Dict}, (dictKeys d).Nodup →
      sumDict d = ((dictKeys d).map (fun k => getD d k)).sum := by
  intro d
  induction d with
  | nil => intro _; rfl
  | cons q d ih =>
      intro hnd
      have hsplit := List.nodup_cons.mp (show (q.1 :: dictKeys d).Nodup from hnd)
      show q.2 + sumDict d
        = getD (q :: d) q.1 + ((dictKeys d).map (fun k => getD (q :: d) k)).sum
      rw [getD_cons, if_pos rfl]
      congr 1
      rw [ih hsplit.2]
      congr 1
      apply List.map_congr_left
      intro k hk
      have hne : q.1 ≠ k := by
        intro h
        apply hsplit.1
        rw [h]
        exact hk
      rw [getD_cons, if_neg hne]

theorem specIter_sum {g : Graph} (hnd : keysNodup g) (hnod : noDangling g) :
    ∀ (r : Nat) (f : Node → ℚ),
      ((dictKeys g).map ((specStep g)^[r] f)).sum = ((dictKeys g).map f).sum := by
  intro r
  induction r with
  | zero => intro f; rfl
  | succ r ih =>
      intro f
      rw [Function.iterate_succ_apply, ih (specStep g f)]
      exact specStep_sum hnd hnod f

theorem sum_map_const (l : List Node) (c : ℚ) :
    (l.map (fun _ => c)).sum = (l.length : ℚ) * c := by
  induction l with
  | nil => simp
  | cons x l ih =>
      simp only [List.map_cons, List.sum_cons, List.length_cons, ih]
      push_cast
      ring

theorem specInit_sum {g : Graph} (hne : dictKeys g ≠ []) :
    ((dictKeys g).map (specInit g)).sum = 1 := by
  unfold specInit
  rw [sum_map_const]
  have hpos : 0 < (dictKeys g).length := List.length_pos.mpr hne
  have hq : ((dictKeys g).length : ℚ) ≠ 0 := by positivity
  field_simp

/-! ### Stochastic correspondence -/

theorem list_getD_eq_get {l : List Node} {i : Nat} (h : i < l.length) (a : Node) :
    l.getD i a = l.get ⟨i, h⟩ := by
  rw [List.getD_eq_getElem?_getD, List.getElem?_eq_getElem h]
  rfl

theorem pyChoice_ok {xs : List Node} (hne : xs ≠ []) (rng : Nat → Nat) (t : Nat) (a : Node) :
    pyChoice rng t xs = .ok (xs.getD (rng t % xs.length) a, t + 1)
      ∧ xs.getD (rng t % xs.length) a ∈ xs := by
  have hlt : rng t % xs.length < xs.length :=
    Nat.mod_lt _ (List.length_pos.mpr hne)
  constructor
  · unfold pyChoice
    rw [dif_neg hne]
    rw [list_getD_eq_get hlt]
  · rw [list_getD_eq_get hlt a]
    exact List.get_mem xs _ _

/-- The inner hop loop equals `n` iterations of the spec's hop, and stays on
graph keys, when the graph has no dangling nodes. -/
theorem walkSteps_spec {g : Graph} (hnod : noDangling g) (rng : Nat → Nat) :
    ∀ (n : Nat) (cur : Node) (t : Nat), dictMem g cur = true →
      walkSteps g rng n cur t = .ok ((specHop g rng)^[n] (cur, t))
        ∧ dictMem g ((specHop g rng)^[n] (cur, t)).1 = true := by
  intro n
  induction n with
  | zero => intro cur t h; exact ⟨rfl, h⟩
  | succ n ih =>
      intro cur t hcur
      obtain ⟨hne, hsub⟩ := noDangling_targets hnod hcur
      have hchoice := pyChoice_ok hne rng t cur
      have hhop : specHop g rng (cur, t)
          = ((targetsOf g cur).getD (rng t % (targetsOf g cur).length) cur, t + 1) := rfl
      have hmemnxt : dictMem g ((targetsOf g cur).getD
          (rng t % (targetsOf g cur).length) cur) = true :=
        hsub _ hchoice.2
      obtain ⟨ihe, ihm⟩ := ih ((targetsOf g cur).getD
        (rng t % (targetsOf g cur).length) cur) (t + 1) hmemnxt
      constructor
      · show (dictGet g cur) >>= _ = _
        rw [dictGet_graph_of_mem hcur]
        simp only [exceptBind_ok]
        rw [hchoice.1]
        simp only [exceptBind_ok]
        rw [ihe, Function.iterate_succ_apply, hhop]
      · rw [Function.iterate_succ_apply, hhop]
        exact ihm

/-- One outer-loop iteration equals the spec's trial and keeps the
`hit_count` key list. -/
theorem oneWalk_spec {g : Graph} (hnod : noDangling g) (hgne : dictKeys g ≠ [])
    {w : ℤ} (hw : w ≠ 0) (s : ℤ) (rng : Nat → Nat) (hc : Dict) (t : Nat)
    (hck : dictKeys hc = dictKeys g) :
    ∃ hc' t', oneWalk g w s rng hc t = .ok (hc', t')
      ∧ dictKeys hc' = dictKeys g
      ∧ (∀ v, getD hc' v
          = (specTrial g rng (s + 1).toNat (1 / (w : ℚ)) (fun v => getD hc v) t).1 v)
      ∧ t' = (specTrial g rng (s + 1).toNat (1 / (w : ℚ)) (fun v => getD hc v) t).2 := by
  have hchoice := pyChoice_ok hgne rng t ""
  set start := (dictKeys g).getD (rng t % (dictKeys g).length) "" with hstart
  have hmemstart : dictMem g start = true := (dictMem_iff_mem_keys g start).mpr hchoice.2
  obtain ⟨hwalk, hmemfin⟩ := walkSteps_spec hnod rng (s + 1).toNat start (t + 1) hmemstart
  set fin := (specHop g rng)^[(s + 1).toNat] (start, t + 1) with hfin
  have hmemhc : dictMem hc fin.1 = true := by
    rw [dictMem_eq_of_keys_eq hck]
    exact hmemfin
  refine ⟨dictSet hc fin.1 (getD hc fin.1 + 1 / (w : ℚ)), fin.2, ?_, ?_, ?_, ?_⟩
  · unfold oneWalk
    rw [hchoice.1]
    simp only [exceptBind_ok]
    rw [hwalk]
    simp only [exceptBind_ok]
    rw [dictGet_of_mem hmemhc]
    simp only [exceptBind_ok]
    rw [if_neg hw]
  · rw [dictKeys_dictSet_of_mem _ hmemhc]
    exact hck
  · intro v
    show getD (dictSet hc fin.1 (getD hc fin.1 + 1 / (w : ℚ))) v
      = if v = fin.1 then getD hc v + 1 / (w : ℚ) else getD hc v
    by_cases hv : v = fin.1
    · subst hv
      rw [getD_dictSet_self, if_pos rfl]
    · rw [getD_dictSet_ne _ hv, if_neg hv]
  · rfl

/-- The outer loop computes the spec's trial fold. -/
theorem stochLoop_spec {g : Graph} (hnod : noDangling g) (hgne : dictKeys g ≠ [])
    {w : ℤ} (hw : w ≠ 0) (s : ℤ) (rng : Nat → Nat) :
    ∀ (k : Nat) (hc : Dict) (t : Nat), dictKeys hc = dictKeys g →
      ∃ hc' t', stochLoop g w s rng k hc t = .ok (hc', t')
        ∧ dictKeys hc' = dictKeys g
        ∧ (∀ v, getD hc' v
            = (specTrials g rng (s + 1).toNat (1 / (w : ℚ)) k (fun v => getD hc v, t)).1 v)
        ∧ t' = (specTrials g rng (s + 1).toNat (1 / (w : ℚ)) k (fun v => getD hc v, t)).2 := by
  intro k
  induction k with
  | zero =>
      intro hc t hck
      exact ⟨hc, t, rfl, hck, fun v => rfl, rfl⟩
  | succ k ih =>
      intro hc t hck
      obtain ⟨hc1, t1, heq1, hk1, hv1, ht1⟩ := oneWalk_spec hnod hgne hw s rng hc t hck
      obtain ⟨hc', t', heq', hk', hv', ht'⟩ := ih hc1 t1 hk1
      have hpair : ((fun v => getD hc1 v : Node → ℚ), t1)
          = specTrial g rng (s + 1).toNat (1 / (w : ℚ)) (fun v => getD hc v) t := by
        apply Prod.ext
        · funext v
          exact hv1 v
        · exact ht1
      refine ⟨hc', t', ?_, hk', fun v => ?_, ?_⟩
      · show (oneWalk g w s rng hc t) >>= _ = _
        rw [heq1]
        simp only [exceptBind_ok]
        exact heq'
      · rw [hv' v]
        show _ = (specTrials g rng (s + 1).toNat (1 / (w : ℚ)) k
          (specTrial g rng (s + 1).toNat (1 / (w : ℚ)) (fun v => getD hc v) t)).1 v
        rw [← hpair]
      · rw [ht']
        show _ = (specTrials g rng (s + 1).toNat (1 / (w : ℚ)) k
          (specTrial g rng (s + 1).toNat (1 / (w : ℚ)) (fun v => getD hc v) t)).2
        rw [← hpair]

/-- The central stochastic correspondence: on a well-formed graph with no
dangling nodes, positive `num_walks` and non-negative `num_steps`, for every
random stream the code returns the dict over exactly the graph keys whose
values are the spec's accumulated counters for `num_walks + 1` trials of
`num_steps + 1` hops, each adding `1/num_walks` — one extra trial and one
extra hop beyond what the parameters name. -/
theorem stochastic_page_rank_spec {g : Graph} (hnd : keysNodup g)
    (hnod : noDangling g) (hgne : g ≠ []) {w s : ℤ} (hw : 1 ≤ w) (hs : 0 ≤ s)
    (rng : Nat → Nat) (t₀ : Nat) :
    ∃ d, stochastic_page_rank g w s rng t₀ = .ok d
      ∧ dictKeys d = dictKeys g
      ∧ ∀ v, getD d v
          = specStochastic g rng t₀ (w.toNat + 1) (s.toNat + 1) (1 / (w : ℚ)) v := by
  have hkne : dictKeys g ≠ [] := by
    intro h
    exact hgne (List.map_eq_nil_iff.mp h)
  have hw0 : w ≠ 0 := by omega
  have hkeys0 :
      dictKeys ((dictKeys g).foldl (fun d k => dictSet d k (0 : ℚ)) ([] : Dict))
        = dictKeys g := by
    rw [dictKeys_foldl_const_fresh 0 (dictKeys g) [] (fun k _ => rfl) hnd]
    rfl
  obtain ⟨hc', t', heq, hk', hv', _⟩ :=
    stochLoop_spec hnod hkne hw0 s rng (w + 1).toNat
      ((dictKeys g).foldl (fun d k => dictSet d k (0 : ℚ)) ([] : Dict)) t₀ hkeys0
  refine ⟨hc', ?_, hk', fun v => ?_⟩
  · unfold stochastic_page_rank
    simp only [heq, exceptBind_ok]
  · rw [hv' v]
    have hwt : (w + 1).toNat = w.toNat + 1 := by omega
    have hst : (s + 1).toNat = s.toNat + 1 := by omega
    rw [hwt, hst]
    unfold specStochastic
    have hzero :
        (fun v => getD ((dictKeys g).foldl (fun d k => dictSet d k (0 : ℚ)) ([] : Dict)) v)
        = (fun _ => (0 : ℚ)) := by
      funext v
      rw [getD_foldl_const]
      by_cases hv : v ∈ dictKeys g
      · rw [if_pos hv]
      · rw [if_neg hv]; rfl
    rw [hzero]

/-! ### Inversion on successful runs -/

theorem exceptBind_eq_ok {ε α β : Type} {x : Except ε α} {f : α → Except ε β} {b : β}
    (h : x >>= f = .ok b) : ∃ a, x = .ok a ∧ f a = .ok b := by
  cases x with
  | ok a => exact ⟨a, rfl, h⟩
  | error e =>
      rw [exceptBind_error] at h
      exact Except.noConfusion h

theorem addAll_ok_keys (p : ℚ) :
    ∀ {ts : List Node} {nx nx' : Dict}, addAll p ts nx = .ok nx' →
      dictKeys nx' = dictKeys nx := by
  intro ts
  induction ts with
  | nil =>
      intro nx nx' h
      cases h
      rfl
  | cons v rest ih =>
      intro nx nx' h
      obtain ⟨cur, hget, hrest⟩ := exceptBind_eq_ok h
      rw [ih hrest, dictKeys_dictSet_of_mem _ (dictGet_ok_imp_mem hget)]

theorem scatterOne_ok_keys {g : Graph} {np nx nx' : Dict} {key : Node}
    (h : scatterOne g np nx key = .ok nx') : dictKeys nx' = dictKeys nx := by
  unfold scatterOne at h
  obtain ⟨pk, hpk, h⟩ := exceptBind_eq_ok h
  obtain ⟨ts, hts, h⟩ := exceptBind_eq_ok h
  by_cases hlen : ts.length = 0
  · rw [if_pos hlen] at h
    exact Except.noConfusion h
  · rw [if_neg hlen] at h
    exact addAll_ok_keys _ h

theorem scatterFoldl_ok_keys {g : Graph} {np : Dict} :
    ∀ {ks : List Node} {nx nx' : Dict},
      ks.foldlM (fun acc key => scatterOne g np acc key) nx = .ok nx' →
      dictKeys nx' = dictKeys nx := by
  intro ks
  induction ks with
  | nil =>
      intro nx nx' h
      cases h
      rfl
  | cons k ks ih =>
      intro nx nx' h
      rw [List.foldlM_cons] at h
      obtain ⟨nx1, h1, hrest⟩ := exceptBind_eq_ok h
      rw [ih hrest, scatterOne_ok_keys h1]

/-! ### Error paths (dangling nodes, empty graphs, bad walk counts) -/

/-- A key of a duplicate-free dict resolves to its stored entry. -/
theorem targetsOf_of_mem_nodup :
    ∀ {g : Graph}, keysNodup g → ∀ {p : Node × List Node}, p ∈ g →
      targetsOf g p.1 = p.2 := by
  intro g
  induction g with
  | nil => intro _ p hp; cases hp
  | cons q g ih =>
      intro hnd p hp
      have hsplit := List.nodup_cons.mp
        (show (q.1 :: dictKeys g).Nodup from hnd)
      rcases List.mem_cons.mp hp with rfl | hpg
      · unfold targetsOf
        rw [List.find?_cons_of_pos _ (by simp)]
      · have hp1 : p.1 ∈ dictKeys g := List.mem_map_of_mem Prod.fst hpg
        have hne : (q.1 == p.1) = false := by
          simp only [beq_eq_false_iff_ne, ne_eq]
          intro h
          exact hsplit.1 (h ▸ hp1)
        show (match (q :: g).find? (fun r => r.1 == p.1) with
          | some r => r.2 | none => []) = p.2
        rw [List.find?_cons_of_neg _ (by simp [hne])]
        exact ih hsplit.2 hpg

theorem walkSteps_emptyTargets {g : Graph} {cur : Node} (rng : Nat → Nat)
    (h : dictGet g cur = .ok []) (n : Nat) (t : Nat) :
    walkSteps g rng (n + 1) cur t = .error .indexError := by
  show (dictGet g cur) >>= _ = _
  rw [h]
  simp only [exceptBind_ok]
  show (pyChoice rng t []) >>= _ = _
  unfold pyChoice
  rw [dif_pos rfl]
  rw [exceptBind_error]

theorem walkSteps_missingKey {g : Graph} {cur : Node} (rng : Nat → Nat)
    (h : dictMem g cur = false) (n : Nat) (t : Nat) :
    walkSteps g rng (n + 1) cur t = .error .keyError := by
  show (dictGet g cur) >>= _ = _
  rw [dictGet_of_not_mem h, exceptBind_error]

theorem addAll_keyError (p : ℚ) :
    ∀ (ts : List Node) (nx : Dict), (∃ v ∈ ts, dictMem nx v = false) →
      addAll p ts nx = .error .keyError := by
  intro ts
  induction ts with
  | nil =>
      intro nx h
      obtain ⟨v, hv, _⟩ := h
      cases hv
  | cons w rest ih =>
      intro nx h
      by_cases hw : dictMem nx w = true
      · show (dictGet nx w) >>= _ = _
        rw [dictGet_of_mem hw]
        simp only [exceptBind_ok]
        apply ih
        obtain ⟨v, hv, hvm⟩ := h
        rcases List.mem_cons.mp hv with rfl | hvr
        · rw [hw] at hvm
          exact Bool.noConfusion hvm
        · refine ⟨v, hvr, ?_⟩
          rw [dictMem_eq_of_keys_eq (dictKeys_dictSet_of_mem _ hw) v]
          exact hvm
      · have hw' : dictMem nx w = false := Bool.eq_false_iff.mpr (by simpa using hw)
        show (dictGet nx w) >>= _ = _
        rw [dictGet_of_not_mem hw', exceptBind_error]

/-- A node of the claim's "zero out-edges" kind, as visible to
`distribution_page_rank`: a key with an empty target list, or a key with a
target that is not itself a key. -/
def hasDangling (g : Graph) : Prop :=
  ∃ p ∈ g, p.2 = [] ∨ ∃ v ∈ p.2, dictMem g v = false

instance (g : Graph) : Decidable (hasDangling g) := by
  unfold hasDangling; infer_instance

theorem scatterFold_error {g : Graph} {np : Dict}
    (hnp : ∀ k, dictMem g k = true → dictMem np k = true) :
    ∀ (ks : List Node) (nx : Dict), (∀ k ∈ ks, dictMem g k = true) →
      (∀ v, dictMem nx v = true ↔ dictMem g v = true) →
      (∃ k ∈ ks, targetsOf g k = [] ∨ ∃ v ∈ targetsOf g k, dictMem g v = false) →
      ∃ e, ks.foldlM (fun acc key => scatterOne g np acc key) nx = .error e
        ∧ (e = PyErr.zeroDivisionError ∨ e = PyErr.keyError) := by
  intro ks
  induction ks with
  | nil =>
      intro nx _ _ hbad
      obtain ⟨k, hk, _⟩ := hbad
      cases hk
  | cons k ks ih =>
      intro nx hks hnx hbad
      rw [List.foldlM_cons]
      by_cases hbadk : targetsOf g k = [] ∨ ∃ v ∈ targetsOf g k, dictMem g v = false
      · -- the head key fails
        have hmemk : dictMem g k = true := hks k (by simp)
        rcases hbadk with hemp | ⟨v, hv, hvm⟩
        · refine ⟨.zeroDivisionError, ?_, Or.inl rfl⟩
          have hso : scatterOne g np nx k = .error .zeroDivisionError := by
            unfold scatterOne
            rw [dictGet_of_mem (hnp k hmemk)]
            simp only [exceptBind_ok]
            rw [dictGet_graph_of_mem hmemk]
            simp only [exceptBind_ok]
            rw [if_pos (by rw [hemp]; rfl)]
          rw [hso, exceptBind_error]
        · by_cases hemp : targetsOf g k = []
          · refine ⟨.zeroDivisionError, ?_, Or.inl rfl⟩
            have hso : scatterOne g np nx k = .error .zeroDivisionError := by
              unfold scatterOne
              rw [dictGet_of_mem (hnp k hmemk)]
              simp only [exceptBind_ok]
              rw [dictGet_graph_of_mem hmemk]
              simp only [exceptBind_ok]
              rw [if_pos (by rw [hemp]; rfl)]
            rw [hso, exceptBind_error]
          · refine ⟨.keyError, ?_, Or.inr rfl⟩
            have hso : scatterOne g np nx k = .error .keyError := by
              unfold scatterOne
              rw [dictGet_of_mem (hnp k hmemk)]
              simp only [exceptBind_ok]
              rw [dictGet_graph_of_mem hmemk]
              simp only [exceptBind_ok]
              rw [if_neg (fun h => hemp (List.length_eq_zero.mp h))]
              apply addAll_keyError
              refine ⟨v, hv, ?_⟩
              rw [Bool.eq_false_iff]
              intro hc
              rw [(hnx v).mp hc] at hvm
              exact Bool.noConfusion hvm
            rw [hso, exceptBind_error]
      · -- the head key succeeds; the bad key is further on
        have hmemk : dictMem g k = true := hks k (by simp)
        push_neg at hbadk
        obtain ⟨hne, hall⟩ := hbadk
        obtain ⟨nx1, heq1, hkeys1, _⟩ := scatterOne_ok hmemk (hnp k hmemk) hne
          (fun v hv => (hnx v).mpr (by
            cases hgv : dictMem g v with
            | false => exact absurd hgv (by simpa using hall v hv)
            | true => rfl))
        rw [heq1]
        simp only [exceptBind_ok]
        apply ih nx1 (fun k' hk' => hks k' (by simp [hk']))
          (fun v => by rw [dictMem_eq_of_keys_eq hkeys1 v]; exact hnx v)
        obtain ⟨kb, hkb, hbadb⟩ := hbad
        rcases List.mem_cons.mp hkb with rfl | hkbr
        · rcases hbadb with hemp | ⟨v, hv, hvm⟩
          · exact absurd hemp hne
          · exact absurd hvm (by simpa using hall v hv)
        · exact ⟨kb, hkbr, hbadb⟩

theorem distRound_error {g : Graph} (hnd : keysNodup g) (hdang : hasDangling g)
    {np nx : Dict} (hnpk : dictKeys np = dictKeys g)
    (hnxk : ∀ v, dictMem nx v = true → dictMem g v = true) :
    ∃ e, distRound g np nx = .error e
      ∧ (e = PyErr.zeroDivisionError ∨ e = PyErr.keyError) := by
  have hnp : ∀ k, dictMem g k = true → dictMem np k = true := by
    intro k hk
    rw [dictMem_eq_of_keys_eq hnpk k]
    exact hk
  have hmem1 : ∀ v, dictMem (zeroKeys (dictKeys g) nx) v = true ↔ dictMem g v = true := by
    intro v
    show dictMem ((dictKeys g).foldl (fun acc k => dictSet acc k 0) nx) v = true ↔ _
    rw [dictMem_foldl_const]
    constructor
    · rintro (hv | hv)
      · exact hnxk v hv
      · exact (dictMem_iff_mem_keys g v).mpr hv
    · intro hv
      exact Or.inr ((dictMem_iff_mem_keys g v).mp hv)
  obtain ⟨p, hp, hbadp⟩ := hdang
  have hbadkey : ∃ k ∈ dictKeys g, targetsOf g k = []
      ∨ ∃ v ∈ targetsOf g k, dictMem g v = false := by
    refine ⟨p.1, List.mem_map_of_mem Prod.fst hp, ?_⟩
    rw [targetsOf_of_mem_nodup hnd hp]
    exact hbadp
  obtain ⟨e, heq, hkind⟩ := scatterFold_error hnp (dictKeys g) (zeroKeys (dictKeys g) nx)
    (fun k hk => (dictMem_iff_mem_keys g k).mpr hk) hmem1 hbadkey
  refine ⟨e, ?_, hkind⟩
  unfold distRound
  simp only [heq, exceptBind_error]

theorem distRounds_error {g : Graph} {np nx : Dict} {e : PyErr}
    (h : distRound g np nx = .error e) (r : Nat) :
    distRounds g (r + 1) np nx = .error e := by
  show (distRound g np nx) >>= _ = _
  rw [h, exceptBind_error]

/-- On a well-formed graph containing a dangling node, the Distribution
Estimator raises `ZeroDivisionError` or `KeyError` during the first round. -/
theorem distribution_page_rank_dangling {g : Graph} (hnd : keysNodup g)
    (hdang : hasDangling g) {n : ℤ} (hn : 0 ≤ n) :
    ∃ e, distribution_page_rank g n = .error e
      ∧ (e = PyErr.zeroDivisionError ∨ e = PyErr.keyError) := by
  obtain ⟨e, heq, hkind⟩ := distRound_error hnd hdang (initProb_keys hnd)
    (fun v (hv : dictMem ([] : Dict) v = true) => Bool.noConfusion hv)
  refine ⟨e, ?_, hkind⟩
  unfold distribution_page_rank
  have ht : (n + 1).toNat = n.toNat + 1 := by omega
  rw [ht]
  simp only [distRounds_error heq n.toNat, exceptBind_error]

/-- With a negative walk count, `range(n_iter+1)` is empty: the Stochastic
Estimator returns the all-zero hit dict without error. -/
theorem stochastic_page_rank_neg {g : Graph} {w : ℤ} (hw : w ≤ -1) (s : ℤ)
    (rng : Nat → Nat) (t₀ : Nat) :
    stochastic_page_rank g w s rng t₀
      = .ok ((dictKeys g).foldl (fun d k => dictSet d k (0 : ℚ)) []) := by
  unfold stochastic_page_rank
  have h : (w + 1).toNat = 0 := by omega
  rw [h]
  rfl

/-- With `num_walks = 0` on a valid graph, the first walk completes and the
increment `1/n_iter` raises `ZeroDivisionError`. -/
theorem stochastic_page_rank_zero {g : Graph} (hnd : keysNodup g)
    (hnod : noDangling g) (hgne : g ≠ []) (s : ℤ) (rng : Nat → Nat) (t₀ : Nat) :
    stochastic_page_rank g 0 s rng t₀ = .error .zeroDivisionError := by
  have hkne : dictKeys g ≠ [] := by
    intro h
    exact hgne (List.map_eq_nil_iff.mp h)
  have hkeys0 :
      dictKeys ((dictKeys g).foldl (fun d k => dictSet d k (0 : ℚ)) ([] : Dict))
        = dictKeys g := by
    rw [dictKeys_foldl_const_fresh 0 (dictKeys g) [] (fun k _ => rfl) hnd]
    rfl
  have hchoice := pyChoice_ok hkne rng t₀ ""
  set start := (dictKeys g).getD (rng t₀ % (dictKeys g).length) "" with hstart
  have hmemstart : dictMem g start = true := (dictMem_iff_mem_keys g start).mpr hchoice.2
  obtain ⟨hwalk, hmemfin⟩ := walkSteps_spec hnod rng (s + 1).toNat start (t₀ + 1) hmemstart
  have hwalkerr : oneWalk g 0 s rng
      ((dictKeys g).foldl (fun d k => dictSet d k (0 : ℚ)) ([] : Dict)) t₀
      = .error .zeroDivisionError := by
    unfold oneWalk
    rw [hchoice.1]
    simp only [exceptBind_ok]
    rw [hwalk]
    simp only [exceptBind_ok]
    rw [dictGet_of_mem (by rw [dictMem_eq_of_keys_eq hkeys0]; exact hmemfin)]
    simp only [exceptBind_ok]
    simp
  unfold stochastic_page_rank
  have h1 : ((0 : ℤ) + 1).toNat = 1 := rfl
  rw [h1]
  show ((oneWalk g 0 s rng _ t₀) >>= _) >>= _ = _
  rw [hwalkerr, exceptBind_error, exceptBind_error]

/-- On a graph with zero nodes, any non-negative walk count makes
`random.choice` sample from an empty key list: `IndexError`. -/
theorem stochastic_page_rank_empty {w : ℤ} (hw : 0 ≤ w) (s : ℤ)
    (rng : Nat → Nat) (t₀ : Nat) :
    stochastic_page_rank [] w s rng t₀ = .error .indexError := by
  have hwalkerr : oneWalk [] w s rng [] t₀ = .error .indexError := by
    unfold oneWalk
    show (pyChoice rng t₀ []) >>= _ = _
    unfold pyChoice
    rw [dif_pos rfl, exceptBind_error]
  unfold stochastic_page_rank
  have h1 : (w + 1).toNat = w.toNat + 1 := by omega
  rw [h1]
  show ((oneWalk [] w s rng [] t₀) >>= _) >>= _ = _
  rw [hwalkerr, exceptBind_error, exceptBind_error]

/-- On a graph with zero nodes, the Distribution Estimator returns the empty
dict without error, for every round parameter. -/
theorem distribution_page_rank_empty (n : ℤ) :
    distribution_page_rank [] n = .ok [] := by
  have hrounds : ∀ r, distRounds [] r [] [] = .ok ([], []) := by
    intro r
    induction r with
    | zero => rfl
    | succ r ih =>
        show (distRound [] [] []) >>= _ = _
        rw [show distRound [] [] [] = .ok ([], []) from rfl]
        simp only [exceptBind_ok]
        exact ih
  unfold distribution_page_rank
  have hinit : initProb (dictKeys ([] : Graph)) = ([] : Dict) := rfl
  rw [hinit]
  simp only [hrounds, exceptBind_ok]

/-! ### Key-set preservation on any successful run -/

theorem oneWalk_ok_keys {g : Graph} {w s : ℤ} {rng : Nat → Nat} {hc hc' : Dict}
    {t t' : Nat} (h : oneWalk g w s rng hc t = .ok (hc', t')) :
    dictKeys hc' = dictKeys hc := by
  unfold oneWalk at h
  obtain ⟨⟨start, t1⟩, hch, h⟩ := exceptBind_eq_ok h
  obtain ⟨⟨fin, t2⟩, hwk, h⟩ := exceptBind_eq_ok h
  obtain ⟨cur, hget, h⟩ := exceptBind_eq_ok h
  by_cases hw : w = 0
  · rw [if_pos hw] at h
    exact Except.noConfusion h
  · rw [if_neg hw] at h
    injection h with hpair
    have h1 : dictSet hc fin (cur + 1 / (w : ℚ)) = hc' := congrArg Prod.fst hpair
    rw [← h1]
    exact dictKeys_dictSet_of_mem _ (dictGet_ok_imp_mem hget)

theorem stochLoop_ok_keys {g : Graph} {w s : ℤ} {rng : Nat → Nat} :
    ∀ {k : Nat} {hc hc' : Dict} {t t' : Nat},
      stochLoop g w s rng k hc t = .ok (hc', t') → dictKeys hc' = dictKeys hc := by
  intro k
  induction k with
  | zero =>
      intro hc hc' t t' h
      injection h with hpair
      have h1 : hc = hc' := congrArg Prod.fst hpair
      rw [h1]
  | succ k ih =>
      intro hc hc' t t' h
      obtain ⟨⟨hc1, t1⟩, h1, hrest⟩ := exceptBind_eq_ok h
      rw [ih hrest, oneWalk_ok_keys h1]

/-- Whenever the Stochastic Estimator returns a dict at all, its key set is
exactly the graph's key list. -/
theorem stochastic_page_rank_ok_keys {g : Graph} (hnd : keysNodup g)
    {w s : ℤ} {rng : Nat → Nat} {t₀ : Nat} {d : Dict}
    (h : stochastic_page_rank g w s rng t₀ = .ok d) : dictKeys d = dictKeys g := by
  unfold stochastic_page_rank at h
  obtain ⟨⟨res, tend⟩, hloop, h⟩ := exceptBind_eq_ok h
  injection h with h
  rw [← h, stochLoop_ok_keys hloop,
    dictKeys_foldl_const_fresh 0 (dictKeys g) [] (fun k _ => rfl) hnd]
  rfl

theorem distRound_ok_keys {g : Graph} {np nx np' nx' : Dict}
    (hnpk : dictKeys np = dictKeys g)
    (hnxk : ∀ v, dictMem nx v = true → dictMem g v = true)
    (h : distRound g np nx = .ok (np', nx')) :
    dictKeys np' = dictKeys g
      ∧ (∀ v, dictMem nx' v = true → dictMem g v = true) := by
  unfold distRound at h
  obtain ⟨nx2, hfold, h⟩ := exceptBind_eq_ok h
  injection h with hpair
  have h1 : dictUpdate np nx2 = np' := congrArg Prod.fst hpair
  have h2 : nx2 = nx' := congrArg Prod.snd hpair
  have hkeys2 : dictKeys nx2 = dictKeys (zeroKeys (dictKeys g) nx) :=
    scatterFoldl_ok_keys hfold
  have hmem2 : ∀ v, dictMem nx2 v = true → dictMem g v = true := by
    intro v hv
    rw [dictMem_eq_of_keys_eq hkeys2] at hv
    have hv' : dictMem ((dictKeys g).foldl (fun acc k => dictSet acc k 0) nx) v = true := hv
    rcases (dictMem_foldl_const 0 (dictKeys g) nx v).mp hv' with hcase | hcase
    · exact hnxk v hcase
    · exact (dictMem_iff_mem_keys g v).mpr hcase
  refine ⟨?_, fun v hv => hmem2 v (by rw [h2]; exact hv)⟩
  rw [← h1]
  rw [dictKeys_dictUpdate_of_subset (fun k hk => ?_)]
  · exact hnpk
  · rw [dictMem_eq_of_keys_eq hnpk k]
    exact hmem2 k hk

theorem distRounds_ok_keys {g : Graph} :
    ∀ {r : Nat} {np nx np' nx' : Dict}, dictKeys np = dictKeys g →
      (∀ v, dictMem nx v = true → dictMem g v = true) →
      distRounds g r np nx = .ok (np', nx') → dictKeys np' = dictKeys g := by
  intro r
  induction r with
  | zero =>
      intro np nx np' nx' hnpk _ h
      injection h with hpair
      have h1 : np = np' := congrArg Prod.fst hpair
      rw [← h1]
      exact hnpk
  | succ r ih =>
      intro np nx np' nx' hnpk hnxk h
      obtain ⟨⟨np1, nx1⟩, h1, hrest⟩ := exceptBind_eq_ok h
      obtain ⟨hk1, hm1⟩ := distRound_ok_keys hnpk hnxk h1
      exact ih hk1 hm1 hrest

/-- Whenever the Distribution Estimator returns a dict at all, its key set
is exactly the graph's key list. -/
theorem distribution_page_rank_ok_keys {g : Graph} (hnd : keysNodup g)
    {n : ℤ} {d : Dict} (h : distribution_page_rank g n = .ok d) :
    dictKeys d = dictKeys g := by
  unfold distribution_page_rank at h
  obtain ⟨⟨res, nxend⟩, hrounds, h⟩ := exceptBind_eq_ok h
  injection h with h
  rw [← h]
  exact distRounds_ok_keys (initProb_keys hnd) (fun v hv => Bool.noConfusion hv) hrounds

/-! ### `load_graph` and duplicate edges -/

theorem targetsOf_cons (q : Node × List Node) (g : Graph) (w : Node) :
    targetsOf (q :: g) w = if q.1 = w then q.2 else targetsOf g w := by
  unfold targetsOf
  by_cases h : q.1 = w
  · rw [List.find?_cons_of_pos _ (by simp [h]), if_pos h]
  · rw [List.find?_cons_of_neg _ (by simp [h]), if_neg h]

theorem targetsOf_of_not_mem {g : Graph} {u : Node} (h : dictMem g u = false) :
    targetsOf g u = [] := by
  unfold targetsOf
  rw [find?_eq_none_of_not_mem h]

theorem targetsOf_mapAppend_self (a b : Node) :
    ∀ (g : Graph), dictMem g a = true →
      targetsOf (g.map (fun p => if p.1 == a then (p.1, p.2 ++ [b]) else p)) a
        = targetsOf g a ++ [b] := by
  intro g
  induction g with
  | nil => intro h; simp [dictMem] at h
  | cons q g ih =>
      intro h
      rw [List.map_cons]
      by_cases hq : q.1 = a
      · have hhead : (if (q.1 == a) = true then (q.1, q.2 ++ [b]) else q)
            = (q.1, q.2 ++ [b]) := by simp [hq]
        rw [hhead, targetsOf_cons, targetsOf_cons, if_pos hq, if_pos hq]
      · have hhead : (if (q.1 == a) = true then (q.1, q.2 ++ [b]) else q) = q := by
          simp [hq]
        rw [hhead, targetsOf_cons, targetsOf_cons, if_neg hq, if_neg hq]
        apply ih
        rw [dictMem_cons] at h
        simpa [hq] using h

theorem targetsOf_mapAppend_ne (a b : Node) {u : Node} (hu : u ≠ a) :
    ∀ (g : Graph),
      targetsOf (g.map (fun p => if p.1 == a then (p.1, p.2 ++ [b]) else p)) u
        = targetsOf g u := by
  intro g
  induction g with
  | nil => rfl
  | cons q g ih =>
      rw [List.map_cons]
      by_cases hq : q.1 = a
      · have hhead : (if (q.1 == a) = true then (q.1, q.2 ++ [b]) else q)
            = (q.1, q.2 ++ [b]) := by simp [hq]
        have hne : q.1 ≠ u := by
          rw [hq]
          exact Ne.symm hu
        rw [hhead, targetsOf_cons, targetsOf_cons, if_neg hne, if_neg hne]
        exact ih
      · have hhead : (if (q.1 == a) = true then (q.1, q.2 ++ [b]) else q) = q := by
          simp [hq]
        rw [hhead, targetsOf_cons, targetsOf_cons]
        by_cases hqu : q.1 = u
        · rw [if_pos hqu, if_pos hqu]
        · rw [if_neg hqu, if_neg hqu]
          exact ih

theorem targetsOf_graphAppend (g : Graph) (a b u : Node) :
    targetsOf (graphAppend g a b) u
      = if u = a then targetsOf g u ++ [b] else targetsOf g u := by
  unfold graphAppend
  by_cases hmem : g.any (fun p => p.1 == a) = true
  · rw [if_pos hmem]
    by_cases hu : u = a
    · subst hu
      rw [if_pos rfl]
      exact targetsOf_mapAppend_self u b g hmem
    · rw [if_neg hu]
      exact targetsOf_mapAppend_ne a b hu g
  · have hmem' : dictMem g a = false := by
      rw [Bool.eq_false_iff]
      exact hmem
    rw [if_neg hmem]
    by_cases hu : u = a
    · subst hu
      rw [if_pos rfl, targetsOf_of_not_mem hmem']
      unfold targetsOf
      rw [List.find?_append, find?_eq_none_of_not_mem hmem']
      simp
    · rw [if_neg hu]
      unfold targetsOf
      rw [List.find?_append]
      have hnone : ([(a, [b])].find? (fun p => p.1 == u)) = none := by
        rw [List.find?_cons_of_neg _ (by simp [Ne.symm hu])]
        rfl
      rw [hnone]
      cases g.find? (fun p => p.1 == u) <;> simp

theorem load_graph_fold_count (u v : Node) :
    ∀ (c : List (Node × Node)) (g : Graph),
      (targetsOf (c.foldl (fun acc p => graphAppend acc p.1 p.2) g) u).count v
        = (targetsOf g u).count v + c.countP (fun e => e.1 == u && e.2 == v) := by
  intro c
  induction c with
  | nil => intro g; simp
  | cons e c ih =>
      intro g
      show (targetsOf (c.foldl (fun acc p => graphAppend acc p.1 p.2)
        (graphAppend g e.1 e.2)) u).count v = _
      rw [ih (graphAppend g e.1 e.2), targetsOf_graphAppend,
        List.countP_cons]
      by_cases he1 : e.1 = u
      · rw [if_pos he1.symm, List.count_append]
        by_cases he2 : e.2 = v
        · rw [if_pos (by simp [he1, he2]),
            show [e.2].count v = 1 by rw [he2]; simp]
          ring
        · rw [if_neg (by simp [he2]),
            show [e.2].count v = 0 by
              rw [List.count_eq_zero]
              intro hm
              exact he2 (List.mem_singleton.mp hm).symm]
          ring
      · rw [if_neg (fun h => he1 h.symm), if_neg (by simp [he1])]
        ring

theorem load_graph_fold_length (u : Node) :
    ∀ (c : List (Node × Node)) (g : Graph),
      (targetsOf (c.foldl (fun acc p => graphAppend acc p.1 p.2) g) u).length
        = (targetsOf g u).length + c.countP (fun e => e.1 == u) := by
  intro c
  induction c with
  | nil => intro g; simp
  | cons e c ih =>
      intro g
      show (targetsOf (c.foldl (fun acc p => graphAppend acc p.1 p.2)
        (graphAppend g e.1 e.2)) u).length = _
      rw [ih (graphAppend g e.1 e.2), targetsOf_graphAppend, List.countP_cons]
      by_cases he1 : e.1 = u
      · rw [if_pos he1.symm, List.length_append, if_pos (by simp [he1])]
        simp only [List.length_singleton]
        omega
      · rw [if_neg (fun h => he1 h.symm), if_neg (by simp [he1])]
        omega

theorem map_getD_range : ∀ (l : List Node),
    (List.range l.length).map (fun i => l.getD i "") = l := by
  intro l
  induction l with
  | nil => rfl
  | cons x xs ih =>
      rw [List.length_cons, List.range_succ_eq_map, List.map_cons, List.map_map]
      have htail : (List.range xs.length).map ((fun i => (x :: xs).getD i "") ∘ Nat.succ)
          = (List.range xs.length).map (fun i => xs.getD i "") := by
        apply List.map_congr_left
        intro i _
        simp
      rw [htail, ih]
      rfl

/-- Of the `ts.length` equally likely choice indices, exactly
`ts.count v` select `v`. -/
theorem choice_count (ts : List Node) (v : Node) :
    ((List.range ts.length).filter (fun i => ts.getD i "" == v)).length
      = ts.count v := by
  have h1 : ts.count v = List.countP (fun x => x == v) ts := rfl
  have h2 : List.countP (fun x => x == v) ts
      = List.countP (fun x => x == v)
          ((List.range ts.length).map (fun i => ts.getD i "")) := by
    rw [map_getD_range]
  rw [h1, h2, List.countP_map, List.countP_eq_length_filter]
  rfl

/-! ### Test fixtures -/

/-- The spec's 3-node cycle graph `A→B, B→C, C→A`. -/
def cycleGraph : Graph := [("A", ["B"]), ("B", ["C"]), ("C", ["A"])]

/-- The uniform mass dict `{A: 1/3, B: 1/3, C: 1/3}`. -/
def cycleThird : Dict := [("A", 1/3), ("B", 1/3), ("C", 1/3)]

/-! ### Claims -/

/-- C1 (counterexample): the claim says the Distribution Estimator performs
exactly `num_rounds` rounds, so with `num_rounds = 0` it would return the
initial mass, which on the graph `{A: [B], B: [B]}` gives `A` mass `1/2`;
the code performs one round more and returns `A ↦ 0`, `B ↦ 1`. -/
theorem C1_counterexample :
    distribution_page_rank [("A", ["B"]), ("B", ["B"])] 0
      = .ok [("A", 0), ("B", 1)]
    ∧ (specStep [("A", ["B"]), ("B", ["B"])])^[(0 : ℤ).toNat]
        (specInit [("A", ["B"]), ("B", ["B"])]) "A" = 1 / 2
    ∧ (0 : ℚ) ≠ 1 / 2 := by
  refine ⟨by with_unfolding_all decide, ?_, by norm_num⟩
  show specInit [("A", ["B"]), ("B", ["B"])] "A" = 1 / 2
  with_unfolding_all decide

/-- C1 (amended): on a well-formed graph with no dangling nodes and
`num_rounds ≥ 0`, the Distribution Estimator initialises each node's mass to
`1/N`, performs exactly `num_rounds + 1` rounds of the spec's operator
`v ↦ Σᵤ m(u,v) · p(u)/d(u)`, and returns the resulting mass mapping over
exactly the graph's keys.  (`keysNodup` is the Python dict invariant.) -/
theorem C1_rounds_plus_one {g : Graph} (hnd : keysNodup g) (hnod : noDangling g)
    {n : ℤ} (hn : 0 ≤ n) :
    ∃ d, distribution_page_rank g n = .ok d
      ∧ dictKeys d = dictKeys g
      ∧ ∀ v, getD d v = (specStep g)^[n.toNat + 1] (specInit g) v :=
  distribution_page_rank_spec hnd hnod hn

/-- C1 (witness): the amended claim evaluated on the 3-cycle with
`num_rounds = 0`. -/
theorem C1_witness :
    ∃ d, distribution_page_rank cycleGraph 0 = .ok d
      ∧ dictKeys d = dictKeys cycleGraph
      ∧ ∀ v, getD d v
          = (specStep cycleGraph)^[(0 : ℤ).toNat + 1] (specInit cycleGraph) v :=
  C1_rounds_plus_one (by decide) (by decide) (by norm_num)

/-- C2 (counterexample): the claim says the Stochastic Estimator performs
exactly `num_walks` trials of `num_steps` hops; on the self-loop graph
`{A: [A]}` with `num_walks = 1`, `num_steps = 0` that algorithm (the spec
fold with exactly those counts) gives `A` a counter of `1`, but the code,
which runs `num_walks + 1` trials, returns `A ↦ 2` for every random
stream — here the constant stream. -/
theorem C2_counterexample :
    stochastic_page_rank [("A", ["A"])] 1 0 (fun _ => 0) 0 = .ok [("A", 2)]
    ∧ specStochastic [("A", ["A"])] (fun _ => 0) 0 1 0 1 "A" = 1
    ∧ (2 : ℚ) ≠ 1 := by
  refine ⟨by with_unfolding_all decide, by with_unfolding_all decide, by norm_num⟩

/-- C2 (amended): on a well-formed graph with no dangling nodes, positive
`num_walks` and non-negative `num_steps`, for every random stream and start
position the Stochastic Estimator performs `num_walks + 1` trials; each
trial starts at the key selected by the random source, hops
`num_steps + 1` times (each hop selected by the random source among the
current node's out-edge targets), and adds exactly `1/num_walks` to the hit
counter of the node then occupied; the returned dict is these accumulated
counters over exactly the graph's keys. -/
theorem C2_walks_plus_one {g : Graph} (hnd : keysNodup g) (hnod : noDangling g)
    (hgne : g ≠ []) {w s : ℤ} (hw : 1 ≤ w) (hs : 0 ≤ s)
    (rng : Nat → Nat) (t₀ : Nat) :
    ∃ d, stochastic_page_rank g w s rng t₀ = .ok d
      ∧ dictKeys d = dictKeys g
      ∧ ∀ v, getD d v
          = specStochastic g rng t₀ (w.toNat + 1) (s.toNat + 1) (1 / (w : ℚ)) v :=
  stochastic_page_rank_spec hnd hnod hgne hw hs rng t₀

/-- C2 (witness): the amended claim evaluated on the self-loop graph with
`num_walks = 1`, `num_steps = 0` and the constant random stream. -/
theorem C2_witness :
    ∃ d, stochastic_page_rank [("A", ["A"])] 1 0 (fun _ => 0) 0 = .ok d
      ∧ dictKeys d = dictKeys [("A", ["A"])]
      ∧ ∀ v, getD d v
          = specStochastic [("A", ["A"])] (fun _ => 0) 0 ((1 : ℤ).toNat + 1)
              ((0 : ℤ).toNat + 1) (1 / ((1 : ℤ) : ℚ)) v :=
  C2_walks_plus_one (by decide) (by decide) (by decide) (by norm_num) (by norm_num)
    (fun _ => 0) 0

/-- C3 (counterexample): the empty graph vacuously has no dangling nodes,
yet the Distribution Estimator returns the empty dict, whose values sum to
`0`, not `1`. -/
theorem C3_counterexample :
    noDangling ([] : Graph)
    ∧ distribution_page_rank ([] : Graph) 0 = .ok []
    ∧ sumDict [] ≠ 1 :=
  ⟨by decide, distribution_page_rank_empty 0, by norm_num [sumDict]⟩

/-- C3 (amended): on a well-formed *non-empty* graph with no dangling nodes
and `num_rounds ≥ 0`, the scores returned by the Distribution Estimator sum
to exactly `1` in exact rational arithmetic. -/
theorem C3_sum_one {g : Graph} (hnd : keysNodup g) (hnod : noDangling g)
    (hne : g ≠ []) {n : ℤ} (hn : 0 ≤ n) :
    ∃ d, distribution_page_rank g n = .ok d ∧ sumDict d = 1 := by
  have hkne : dictKeys g ≠ [] := by
    intro h
    exact hne (List.map_eq_nil_iff.mp h)
  obtain ⟨d, heq, hkeys, hval⟩ := distribution_page_rank_spec hnd hnod hn
  refine ⟨d, heq, ?_⟩
  have hndd : (dictKeys d).Nodup := by
    rw [hkeys]
    exact hnd
  rw [sumDict_eq_sum_getD hndd, hkeys]
  have hmap : (dictKeys g).map (fun k => getD d k)
      = (dictKeys g).map ((specStep g)^[n.toNat + 1] (specInit g)) :=
    List.map_congr_left (fun k _ => hval k)
  rw [hmap, specIter_sum hnd hnod, specInit_sum hkne]

/-- C3 (witness): the amended claim evaluated on the 3-cycle with
`num_rounds = 2`. -/
theorem C3_witness :
    ∃ d, distribution_page_rank cycleGraph 2 = .ok d ∧ sumDict d = 1 :=
  C3_sum_one (by decide) (by decide) (by decide) (by norm_num)

/-- C4: both estimators run one more iteration than their count parameter
names: the Distribution Estimator's result is `num_rounds + 1` applications
of the spec round operator to the uniform start, and the Stochastic
Estimator's result is the spec fold of `num_walks + 1` trials of
`num_steps + 1` hops, each adding `1/num_walks`. -/
theorem C4_extra_iteration :
    (∀ (g : Graph), keysNodup g → noDangling g → ∀ (n : ℤ), 0 ≤ n →
      ∃ d, distribution_page_rank g n = .ok d
        ∧ ∀ v, getD d v = (specStep g)^[n.toNat + 1] (specInit g) v)
    ∧ (∀ (g : Graph), keysNodup g → noDangling g → g ≠ [] →
        ∀ (w s : ℤ), 1 ≤ w → 0 ≤ s → ∀ (rng : Nat → Nat) (t₀ : Nat),
      ∃ d, stochastic_page_rank g w s rng t₀ = .ok d
        ∧ ∀ v, getD d v
            = specStochastic g rng t₀ (w.toNat + 1) (s.toNat + 1) (1 / (w : ℚ)) v) := by
  constructor
  · intro g hnd hnod n hn
    obtain ⟨d, heq, _, hval⟩ := distribution_page_rank_spec hnd hnod hn
    exact ⟨d, heq, hval⟩
  · intro g hnd hnod hgne w s hw hs rng t₀
    obtain ⟨d, heq, _, hval⟩ := stochastic_page_rank_spec hnd hnod hgne hw hs rng t₀
    exact ⟨d, heq, hval⟩

/-- C4 (witness): both parts evaluated on concrete inputs. -/
theorem C4_witness :
    (∃ d, distribution_page_rank cycleGraph 1 = .ok d
      ∧ ∀ v, getD d v
          = (specStep cycleGraph)^[(1 : ℤ).toNat + 1] (specInit cycleGraph) v)
    ∧ (∃ d, stochastic_page_rank cycleGraph 2 1 (fun t => t) 0 = .ok d
      ∧ ∀ v, getD d v
          = specStochastic cycleGraph (fun t => t) 0 ((2 : ℤ).toNat + 1)
              ((1 : ℤ).toNat + 1) (1 / ((2 : ℤ) : ℚ)) v) :=
  ⟨C4_extra_iteration.1 cycleGraph (by decide) (by decide) 1 (by norm_num),
   C4_extra_iteration.2 cycleGraph (by decide) (by decide) (by decide) 2 1
     (by norm_num) (by norm_num) (fun t => t) 0⟩

/-- C5: on the 3-node cycle `A→B, B→C, C→A`, for every `num_rounds ≥ 0` the
Distribution Estimator returns exactly `{A: 1/3, B: 1/3, C: 1/3}`. -/
theorem C5_cycle_thirds {n : ℤ} (hn : 0 ≤ n) :
    distribution_page_rank cycleGraph n = .ok cycleThird := by
  have hstep0 : distRound cycleGraph cycleThird [] = .ok (cycleThird, cycleThird) := by
    with_unfolding_all decide
  have hstep : distRound cycleGraph cycleThird cycleThird
      = .ok (cycleThird, cycleThird) := by
    with_unfolding_all decide
  have hiter : ∀ m, distRounds cycleGraph m cycleThird cycleThird
      = .ok (cycleThird, cycleThird) := by
    intro m
    induction m with
    | zero => rfl
    | succ m ih =>
        show (distRound cycleGraph cycleThird cycleThird) >>= _ = _
        rw [hstep]
        simp only [exceptBind_ok]
        exact ih
  have hfuel : (n + 1).toNat = n.toNat + 1 := by omega
  have hinit : initProb (dictKeys cycleGraph) = cycleThird := by
    with_unfolding_all decide
  unfold distribution_page_rank
  rw [hfuel]
  simp only [hinit]
  show ((distRound cycleGraph cycleThird []) >>= _) >>= _ = _
  rw [hstep0]
  simp only [exceptBind_ok]
  rw [hiter n.toNat]
  simp only [exceptBind_ok]

/-- C5 (witness): the cycle claim evaluated at `num_rounds = 2`. -/
theorem C5_witness : distribution_page_rank cycleGraph 2 = .ok cycleThird :=
  C5_cycle_thirds (by norm_num)

/-- C6 (counterexample): on the graph `{A: []}` (a key with zero out-edges)
the Distribution Estimator raises `ZeroDivisionError` and the Stochastic
Estimator raises `IndexError`; neither raises `DanglingNodeError`, which
exists only in the spec's intended taxonomy. -/
theorem C6_counterexample :
    distribution_page_rank [("A", [])] 0 = .error .zeroDivisionError
    ∧ stochastic_page_rank [("A", [])] 1 0 (fun _ => 0) 0 = .error .indexError
    ∧ PyErr.zeroDivisionError ≠ PyErr.danglingNodeError
    ∧ PyErr.indexError ≠ PyErr.danglingNodeError := by
  refine ⟨by with_unfolding_all decide, by with_unfolding_all decide,
    by decide, by decide⟩

/-- C6 (amended): for every well-formed graph containing a node with zero
out-edges (an empty target list, or a target absent from the keys) and
`num_rounds ≥ 0`, the Distribution Estimator crashes with
`ZeroDivisionError` or `KeyError`, never with a `DanglingNodeError`; and
when a Stochastic walk reaches a node with an empty target list the next hop
raises `IndexError`, while reaching a node absent from the keys raises
`KeyError`. -/
theorem C6_crash_kinds :
    (∀ (g : Graph), keysNodup g → hasDangling g → ∀ (n : ℤ), 0 ≤ n →
      ∃ e, distribution_page_rank g n = .error e
        ∧ (e = PyErr.zeroDivisionError ∨ e = PyErr.keyError)
        ∧ e ≠ PyErr.danglingNodeError)
    ∧ (∀ (g : Graph) (rng : Nat → Nat) (m t : Nat) (cur : Node),
        dictGet g cur = .ok [] →
        walkSteps g rng (m + 1) cur t = .error .indexError)
    ∧ (∀ (g : Graph) (rng : Nat → Nat) (m t : Nat) (cur : Node),
        dictMem g cur = false →
        walkSteps g rng (m + 1) cur t = .error .keyError) := by
  refine ⟨?_, ?_, ?_⟩
  · intro g hnd hdang n hn
    obtain ⟨e, heq, hkind⟩ := distribution_page_rank_dangling hnd hdang hn
    refine ⟨e, heq, hkind, ?_⟩
    rcases hkind with rfl | rfl
    · decide
    · decide
  · intro g rng m t cur h
    exact walkSteps_emptyTargets rng h m t
  · intro g rng m t cur h
    exact walkSteps_missingKey rng h m t

/-- C6 (witness): the amended claim evaluated on `{B: []}` for the
distribution and empty-target cases, and at the non-key node `C` for the
missing-key case. -/
theorem C6_witness :
    (∃ e, distribution_page_rank [("B", [])] 0 = .error e
      ∧ (e = PyErr.zeroDivisionError ∨ e = PyErr.keyError)
      ∧ e ≠ PyErr.danglingNodeError)
    ∧ walkSteps [("B", [])] (fun _ => 0) 1 "B" 0 = .error .indexError
    ∧ walkSteps [("B", [])] (fun _ => 0) 1 "C" 0 = .error .keyError :=
  ⟨C6_crash_kinds.1 [("B", [])] (by decide) (by decide) 0 (by norm_num),
   C6_crash_kinds.2.1 [("B", [])] (fun _ => 0) 0 0 "B" (by decide),
   C6_crash_kinds.2.2 [("B", [])] (fun _ => 0) 0 0 "C" (by decide)⟩

/-- C7 (counterexample): no `InvalidParameterError` is ever raised.  With
`num_walks = -1` the Stochastic Estimator silently returns the all-zero
dict; on the zero-node graph the Distribution Estimator returns the empty
dict; with `num_walks = 0` the Stochastic Estimator raises
`ZeroDivisionError`, and on the zero-node graph it raises `IndexError`. -/
theorem C7_counterexample :
    stochastic_page_rank [("A", ["A"])] (-1) 0 (fun _ => 0) 0 = .ok [("A", 0)]
    ∧ distribution_page_rank ([] : Graph) 3 = .ok []
    ∧ stochastic_page_rank [("A", ["A"])] 0 0 (fun _ => 0) 0
        = .error .zeroDivisionError
    ∧ stochastic_page_rank ([] : Graph) 1 0 (fun _ => 0) 0 = .error .indexError
    ∧ PyErr.zeroDivisionError ≠ PyErr.invalidParameterError
    ∧ PyErr.indexError ≠ PyErr.invalidParameterError := by
  refine ⟨by with_unfolding_all decide, distribution_page_rank_empty 3,
    by with_unfolding_all decide, by with_unfolding_all decide,
    by decide, by decide⟩

/-- C7 (amended): the actual parameter-validation behaviour.  A negative
`num_walks` makes `range(n_iter+1)` empty, so the Stochastic Estimator
returns the all-zero dict; `num_walks = 0` on a valid graph completes one
walk and then raises `ZeroDivisionError` from `1/n_iter`; a zero-node graph
raises `IndexError` from the Stochastic Estimator whenever at least one walk
runs, while the Distribution Estimator returns the empty dict.  No
`InvalidParameterError` is involved. -/
theorem C7_param_behaviour :
    (∀ (g : Graph) (w : ℤ), w ≤ -1 → ∀ (s : ℤ) (rng : Nat → Nat) (t₀ : Nat),
      stochastic_page_rank g w s rng t₀
        = .ok ((dictKeys g).foldl (fun d k => dictSet d k (0 : ℚ)) []))
    ∧ (∀ (g : Graph), keysNodup g → noDangling g → g ≠ [] →
        ∀ (s : ℤ) (rng : Nat → Nat) (t₀ : Nat),
        stochastic_page_rank g 0 s rng t₀ = .error .zeroDivisionError)
    ∧ (∀ (w : ℤ), 0 ≤ w → ∀ (s : ℤ) (rng : Nat → Nat) (t₀ : Nat),
        stochastic_page_rank [] w s rng t₀ = .error .indexError)
    ∧ (∀ (n : ℤ), distribution_page_rank [] n = .ok []) :=
  ⟨fun _ _ hw s rng t₀ => stochastic_page_rank_neg hw s rng t₀,
   fun _ hnd hnod hgne s rng t₀ => stochastic_page_rank_zero hnd hnod hgne s rng t₀,
   fun _ hw s rng t₀ => stochastic_page_rank_empty hw s rng t₀,
   distribution_page_rank_empty⟩

/-- C7 (witness): the amended claim evaluated at concrete parameters. -/
theorem C7_witness :
    stochastic_page_rank cycleGraph (-2) 1 (fun _ => 0) 0
      = .ok ((dictKeys cycleGraph).foldl (fun d k => dictSet d k (0 : ℚ)) [])
    ∧ stochastic_page_rank cycleGraph 0 1 (fun _ => 0) 0 = .error .zeroDivisionError
    ∧ stochastic_page_rank [] 2 1 (fun _ => 0) 0 = .error .indexError
    ∧ distribution_page_rank [] 7 = .ok [] :=
  ⟨C7_param_behaviour.1 cycleGraph (-2) (by norm_num) 1 (fun _ => 0) 0,
   C7_param_behaviour.2.1 cycleGraph (by decide) (by decide) (by decide) 1
     (fun _ => 0) 0,
   C7_param_behaviour.2.2.1 2 (by norm_num) 1 (fun _ => 0) 0,
   C7_param_behaviour.2.2.2 7⟩

/-- C8: the Distribution Estimator, run with the process-wide random source
as ambient state, returns the same rank dict for any two random streams and
stream positions, and leaves the stream position untouched: it consumes no
randomness. -/
theorem C8_deterministic (g : Graph) (n : ℤ) (rng₁ rng₂ : Nat → Nat) (t₁ t₂ : Nat) :
    (distribution_page_rank_rs g n rng₁ t₁).map Prod.fst
      = (distribution_page_rank_rs g n rng₂ t₂).map Prod.fst
    ∧ ∀ d t', distribution_page_rank_rs g n rng₁ t₁ = .ok (d, t') → t' = t₁ := by
  constructor
  · unfold distribution_page_rank_rs
    cases distribution_page_rank g n <;> rfl
  · intro d t' h
    unfold distribution_page_rank_rs at h
    cases heq : distribution_page_rank g n with
    | ok dd =>
        rw [heq] at h
        injection h with h
        exact (congrArg Prod.snd h).symm
    | error e =>
        rw [heq] at h
        exact Except.noConfusion h

/-- C8 (witness): determinism evaluated on the 3-cycle with two different
streams and positions. -/
theorem C8_witness :
    (distribution_page_rank_rs cycleGraph 0 (fun _ => 0) 5).map Prod.fst
      = (distribution_page_rank_rs cycleGraph 0 (fun _ => 1) 7).map Prod.fst
    ∧ (5 : Nat) = 5 :=
  ⟨(C8_deterministic cycleGraph 0 (fun _ => 0) (fun _ => 1) 5 7).1,
   (C8_deterministic cycleGraph 0 (fun _ => 0) (fun _ => 1) 5 7).2 cycleThird 5
     (by with_unfolding_all decide)⟩

/-- C9: whenever either estimator returns a dict, its key list is exactly
the graph's key list — a node occurring only as an edge target is absent
from the result, not present with score `0`.  (`keysNodup` is the Python
dict invariant.) -/
theorem C9_keys_exact :
    (∀ (g : Graph), keysNodup g →
      ∀ (w s : ℤ) (rng : Nat → Nat) (t₀ : Nat) (d : Dict),
        stochastic_page_rank g w s rng t₀ = .ok d → dictKeys d = dictKeys g)
    ∧ (∀ (g : Graph), keysNodup g → ∀ (n : ℤ) (d : Dict),
        distribution_page_rank g n = .ok d → dictKeys d = dictKeys g) :=
  ⟨fun _ hnd _ _ _ _ _ h => stochastic_page_rank_ok_keys hnd h,
   fun _ hnd _ _ h => distribution_page_rank_ok_keys hnd h⟩

/-- C9 (witness): key-set preservation evaluated on the self-loop graph for
the stochastic side and on `{A: [B], B: [B]}` for the distribution side. -/
theorem C9_witness :
    dictKeys [("A", (2 : ℚ))] = dictKeys [("A", ["A"])]
    ∧ dictKeys [("A", (0 : ℚ)), ("B", 1)] = dictKeys [("A", ["B"]), ("B", ["B"])] :=
  ⟨C9_keys_exact.1 [("A", ["A"])] (by decide) 1 0 (fun _ => 0) 0 [("A", 2)]
     (by with_unfolding_all decide),
   C9_keys_exact.2 [("A", ["B"]), ("B", ["B"])] (by decide) 0 [("A", 0), ("B", 1)]
     (by with_unfolding_all decide)⟩

/-- C10: `load_graph` keeps duplicate edges: the multiplicity of `v` in
`u`'s target list equals the number of `u v` input lines; `u`'s out-degree
is the total number of lines with source `u`; a distribution scatter from
`u` adds `multiplicity · p` to `v` (with `p = p(u)/d(u)` at the call site);
and of the `d(u)` equally likely choice indices of a stochastic hop from
`u`, exactly the multiplicity select `v`. -/
theorem C10_duplicate_edges :
    (∀ (c : List (Node × Node)) (u v : Node),
      (targetsOf (load_graph c) u).count v
        = c.countP (fun e => e.1 == u && e.2 == v))
    ∧ (∀ (c : List (Node × Node)) (u : Node),
      (targetsOf (load_graph c) u).length = c.countP (fun e => e.1 == u))
    ∧ (∀ (ts : List Node) (p : ℚ) (nx : Dict),
        (∀ v ∈ ts, dictMem nx v = true) →
        ∃ nx', addAll p ts nx = .ok nx'
          ∧ ∀ v, getD nx' v = getD nx v + (ts.count v : ℚ) * p)
    ∧ (∀ (c : List (Node × Node)) (u v : Node),
      ((List.range (targetsOf (load_graph c) u).length).filter
          (fun i => (targetsOf (load_graph c) u).getD i "" == v)).length
        = (targetsOf (load_graph c) u).count v) := by
  refine ⟨?_, ?_, ?_, ?_⟩
  · intro c u v
    have h := load_graph_fold_count u v c []
    rw [show targetsOf ([] : Graph) u = [] from rfl] at h
    simpa using h
  · intro c u
    have h := load_graph_fold_length u c []
    rw [show targetsOf ([] : Graph) u = [] from rfl] at h
    simpa using h
  · intro ts p nx hmem
    obtain ⟨nx', heq, _, hval⟩ := addAll_ok p ts nx hmem
    exact ⟨nx', heq, hval⟩
  · intro c u v
    exact choice_count (targetsOf (load_graph c) u) v

/-- C10 (witness): the duplicate-edge claim evaluated on input lines
`a b`, `a b`, `a c`, `b a`. -/
theorem C10_witness :
    (targetsOf (load_graph [("a", "b"), ("a", "b"), ("a", "c"), ("b", "a")]) "a").count "b"
      = ([("a", "b"), ("a", "b"), ("a", "c"), ("b", "a")].countP
          (fun e => e.1 == "a" && e.2 == "b"))
    ∧ (targetsOf (load_graph [("a", "b"), ("a", "b"), ("a", "c"), ("b", "a")]) "a").length
      = ([("a", "b"), ("a", "b"), ("a", "c"), ("b", "a")].countP (fun e => e.1 == "a"))
    ∧ (∃ nx', addAll (1 / 2) ["b", "b", "c"] [("b", 0), ("c", 0)] = .ok nx'
        ∧ ∀ v, getD nx' v
            = getD [("b", 0), ("c", 0)] v + ((["b", "b", "c"].count v : ℚ)) * (1 / 2)) :=
  ⟨C10_duplicate_edges.1 [("a", "b"), ("a", "b"), ("a", "c"), ("b", "a")] "a" "b",
   C10_duplicate_edges.2.1 [("a", "b"), ("a", "b"), ("a", "c"), ("b", "a")] "a",
   C10_duplicate_edges.2.2.1 ["b", "b", "c"] (1 / 2) [("b", 0), ("c", 0)]
     (by decide)⟩

end PageRank
